import Mathlib

/-!
Verification of the arlpy communications toolbox (`comms.py`).

Modelling conventions.  NumPy floating point arithmetic is modelled by exact
real numbers `ℝ` and complex numbers `ℂ`; integer arrays by `List ℕ` or
`List ℤ`; a Python function that can raise an exception returns an `Option`
(`none` on every raising path).  The code is Python 2 code (`len(x)/n` is
floor division, `map` returns a list), and those semantics are followed.
-/

namespace Comms

/-- `gray_code(m)`: the list `map(lambda a: a ^ (a >> 1), range(m))`. -/
def gray_code (m : ℕ) : List ℕ :=
  (List.range m).map (fun a => a ^^^ (a >>> 1))

/-- `invert_map(x)`: `y = empty_like(x); y[x] = arange(len(x))`.  The scatter
assignment is modelled slot by slot in index order (later writes win, as in
NumPy); the uninitialised `empty_like` storage is modelled by zeroes, which is
irrelevant whenever `x` is a permutation, since then every slot is written. -/
def invert_map (x : List ℕ) : List ℕ :=
  (List.range x.length).foldl (fun y i => y.set (x.getD i 0) i)
    (List.replicate x.length 0)

theorem foldl_set_length (x : List ℕ) (l : List ℕ) (y : List ℕ) :
    (l.foldl (fun y i => y.set (x.getD i 0) i) y).length = y.length := by
  induction l generalizing y with
  | nil => rfl
  | cons a t ih => simpa using ih (y.set (x.getD a 0) a)

theorem invert_map_length (x : List ℕ) : (invert_map x).length = x.length := by
  simpa [invert_map] using foldl_set_length x (List.range x.length)
    (List.replicate x.length 0)

theorem nodup_getD_ne (x : List ℕ) (hnd : x.Nodup) (i j : ℕ)
    (hi : i < x.length) (hj : j < x.length) (hij : i ≠ j) :
    x.getD i 0 ≠ x.getD j 0 := by
  rw [x.getD_eq_getElem 0 hi, x.getD_eq_getElem 0 hj]
  intro h
  exact hij ((hnd.getElem_inj_iff).mp h)

theorem getD_set_ne (y : List ℕ) (s t v : ℕ) (h : s ≠ t) :
    (y.set s v).getD t 0 = y.getD t 0 := by
  simp [List.getD_eq_getElem?_getD, List.getElem?_set_ne h]

theorem getD_set_self (y : List ℕ) (s v : ℕ) (hs : s < y.length) :
    (y.set s v).getD s 0 = v := by
  simp [List.getD_eq_getElem?_getD, List.getElem?_set_self hs]

theorem scatter_getD_aux (x : List ℕ) (hb : ∀ v ∈ x, v < x.length)
    (hnd : x.Nodup) :
    ∀ m, m ≤ x.length → ∀ j, j < m →
      (((List.range m).foldl (fun y i => y.set (x.getD i 0) i)
        (List.replicate x.length 0)).getD (x.getD j 0) 0) = j := by
  intro m
  induction m with
  | zero => intro _ j hj; omega
  | succ m ih =>
    intro hm j hj
    have hmlt : m < x.length := hm
    have hslot : x.getD m 0 < x.length := by
      refine hb _ ?_
      rw [x.getD_eq_getElem 0 hmlt]
      exact List.getElem_mem hmlt
    have hlen : (((List.range m).foldl (fun y i => y.set (x.getD i 0) i)
        (List.replicate x.length 0))).length = x.length := by
      simpa using foldl_set_length x (List.range m) (List.replicate x.length 0)
    rw [List.range_succ, List.foldl_append, List.foldl_cons, List.foldl_nil]
    rcases Nat.lt_or_ge j m with hjm | hjm
    · have hne : x.getD m 0 ≠ x.getD j 0 :=
        nodup_getD_ne x hnd m j hmlt (by omega) (by omega)
      rw [getD_set_ne _ _ _ _ hne]
      exact ih (by omega) j hjm
    · have hjeq : j = m := by omega
      subst hjeq
      rw [getD_set_self _ _ _ (by rw [hlen]; exact hslot)]

theorem scatter_getD (x : List ℕ) (hb : ∀ v ∈ x, v < x.length)
    (hnd : x.Nodup) (j : ℕ) (hj : j < x.length) :
    (invert_map x).getD (x.getD j 0) 0 = j :=
  scatter_getD_aux x hb hnd x.length le_rfl j hj

theorem gray_shiftRight (a : ℕ) :
    (a ^^^ (a >>> 1)) >>> 1 = (a >>> 1) ^^^ ((a >>> 1) >>> 1) := by
  apply Nat.eq_of_testBit_eq
  intro i
  simp [Nat.testBit_shiftRight, Nat.testBit_xor]

theorem gray_inj (a : ℕ) : ∀ b, a ^^^ (a >>> 1) = b ^^^ (b >>> 1) → a = b := by
  induction a using Nat.strong_induction_on with
  | _ a ih =>
    intro b h
    rcases Nat.eq_zero_or_pos a with ha | ha
    · subst ha
      simp only [Nat.zero_shiftRight, Nat.xor_self, Nat.zero_xor] at h
      have hb : b = b >>> 1 := by
        have := Nat.xor_eq_zero.mp h.symm
        exact this
      rw [Nat.shiftRight_one] at hb
      omega
    · have hh : (a >>> 1) ^^^ ((a >>> 1) >>> 1) = (b >>> 1) ^^^ ((b >>> 1) >>> 1) := by
        rw [← gray_shiftRight, ← gray_shiftRight, h]
      have hlt : a >>> 1 < a := by rw [Nat.shiftRight_one]; omega
      have heq : a >>> 1 = b >>> 1 := ih (a >>> 1) hlt (b >>> 1) hh
      have : (a ^^^ (a >>> 1)) ^^^ (a >>> 1) = (b ^^^ (b >>> 1)) ^^^ (b >>> 1) := by
        rw [h, heq]
      rwa [Nat.xor_cancel_right, Nat.xor_cancel_right] at this

theorem gray_code_length (m : ℕ) : (gray_code m).length = m := by
  simp [gray_code]

theorem gray_code_getD (m i : ℕ) (hi : i < m) :
    (gray_code m).getD i 0 = i ^^^ (i >>> 1) := by
  rw [List.getD_eq_getElem _ _ (by simpa [gray_code] using hi)]
  simp [gray_code]

theorem gray_code_nodup (m : ℕ) : (gray_code m).Nodup :=
  (List.nodup_range m).map (fun _ _ h => gray_inj _ _ h)

theorem gray_code_lt (k : ℕ) : ∀ v ∈ gray_code (2^k), v < 2^k := by
  intro v hv
  rcases List.mem_map.mp hv with ⟨a, ha, rfl⟩
  have ha' : a < 2^k := List.mem_range.mp ha
  exact Nat.xor_lt_two_pow ha' (lt_of_le_of_lt (by
    rw [Nat.shiftRight_one]; omega) ha')

/-- C3: for every `m = 2^k`, `invert_map(gray_code(m))[gray_code(m)[i]] = i`
for every index `i < m`: the inverse map composed with the Gray map is the
identity permutation. -/
theorem invert_map_gray_code_identity (k i : ℕ) (hi : i < 2^k) :
    (invert_map (gray_code (2^k))).getD ((gray_code (2^k)).getD i 0) 0 = i :=
  scatter_getD (gray_code (2^k))
    (by simpa [gray_code_length] using gray_code_lt k)
    (gray_code_nodup (2^k)) i (by simpa [gray_code_length] using hi)

theorem invert_map_gray_code_identity_witness :
    5 < 2^3 ∧
      (invert_map (gray_code (2^3))).getD ((gray_code (2^3)).getD 5 0) 0 = 5 :=
  ⟨by decide, invert_map_gray_code_identity 3 5 (by decide)⟩

/-- Big-endian accumulation `y <<= 1; y |= x[:, i]` of one row of bits. -/
def beVal (row : List ℕ) : ℕ := row.foldl (fun y b => (y <<< 1) ||| b) 0

/-- Row `i` of `reshape(x, (nsym, n))`: the slice `x[i*n : i*n+n]`. -/
def reshapeRow (x : List ℕ) (n i : ℕ) : List ℕ := (x.drop (i * n)).take n

/-- `bi2sym(x, m)` under Python 2 semantics: `n = int(log2(m))`, reject `m`
not a power of two, reject bits outside `{0, 1}`; `nsym = len(x)/n` is floor
division and raises `ZeroDivisionError` when `n = 0` (i.e. `m = 1`), and
`reshape(x, (nsym, n))` raises `ValueError` unless `nsym * n == len(x)`,
i.e. unless `n` divides `len(x)`.  All raising paths give `none`. -/
def bi2sym (x : List ℕ) (m : ℕ) : Option (List ℕ) :=
  let n := Nat.log2 m
  if 2^n ≠ m then none
  else if ∃ b ∈ x, 1 < b then none
  else if n = 0 then none
  else if ¬ n ∣ x.length then none
  else some (((List.range (x.length / n)).map (reshapeRow x n)).map beVal)

/-- `sym2bi(x, m)`: reject `m` not a power of two and symbols outside
`[0, m)`; row `v` of the output is `[(v >> (n-1-j)) & 1 for j in range(n)]`
(the loop `y[:, n-i-1] = (x >> i) & 1` read column-wise), and the rows are
flattened by `ravel`. -/
def sym2bi (x : List ℕ) (m : ℕ) : Option (List ℕ) :=
  let n := Nat.log2 m
  if 2^n ≠ m then none
  else if ∃ v ∈ x, m ≤ v then none
  else some ((x.map (fun v => (List.range n).map
    (fun j => (v >>> (n - j - 1)) &&& 1))).flatten)

theorem log2_two_pow (k : ℕ) : Nat.log2 (2^k) = k := by
  rw [Nat.log2_eq_log_two]
  exact Nat.log_pow (by norm_num) k

/-- C7: for every `m = 2^k` (including `m = 1`, where `log2(m) = 0` and
`nsym = len(x)/0` raises `ZeroDivisionError`) and every bit array whose
length is not a multiple of `log2(m)`, `bi2sym` raises an error; it never
silently truncates.  For `k ≥ 1` the converse also holds: `bi2sym` raises
on a valid bit array exactly when `log2(m)` does not divide its length. -/
theorem bi2sym_length_error (k : ℕ) (x : List ℕ)
    (hx : ∀ b ∈ x, b ≤ 1) :
    (¬ k ∣ x.length → bi2sym x (2^k) = none)
    ∧ (1 ≤ k → (bi2sym x (2^k) = none ↔ ¬ k ∣ x.length)) := by
  have hbits : ¬ ∃ b ∈ x, 1 < b := by
    rintro ⟨b, hb, hb1⟩
    exact absurd (hx b hb) (by omega)
  constructor
  · intro hdvd
    rw [bi2sym]
    simp only [log2_two_pow]
    rw [if_neg (by simp), if_neg hbits]
    by_cases hk0 : k = 0
    · rw [if_pos hk0]
    · rw [if_neg hk0, if_pos (by simpa using hdvd)]
  · intro hk
    rw [bi2sym]
    simp only [log2_two_pow]
    rw [if_neg (by simp), if_neg hbits, if_neg (by omega)]
    by_cases hdvd : k ∣ x.length
    · rw [if_neg (by simpa using hdvd)]
      simp [hdvd]
    · rw [if_pos (by simpa using hdvd)]
      simp [hdvd]

theorem bi2sym_length_error_witness :
    (∀ b ∈ ([1, 0, 1] : List ℕ), b ≤ 1)
    ∧ bi2sym [1, 0, 1] (2^0) = none
    ∧ bi2sym [1, 0, 1] (2^2) = none :=
  ⟨by decide,
    (bi2sym_length_error 0 [1, 0, 1] (by decide)).1 (by decide),
    (bi2sym_length_error 2 [1, 0, 1] (by decide)).1 (by decide)⟩

theorem shiftLeft_or_bit (y b : ℕ) (hb : b ≤ 1) : (y <<< 1) ||| b = 2 * y + b := by
  rw [Nat.shiftLeft_eq, pow_one]
  interval_cases b
  · rw [Nat.or_zero]
    omega
  · apply Nat.eq_of_testBit_eq
    intro i
    cases i with
    | zero =>
      simp only [Nat.testBit_or, Nat.testBit_zero]
      have h1 : (y * 2) % 2 = 0 := by omega
      have h2 : (2 * y + 1) % 2 = 1 := by omega
      simp [h1, h2]
    | succ i =>
      have h1 : y * 2 / 2 = y := by omega
      have h2 : (2 * y + 1) / 2 = y := by omega
      have h3 : (1 : ℕ) / 2 = 0 := by omega
      rw [Nat.testBit_or, Nat.testBit_add_one, Nat.testBit_add_one,
        Nat.testBit_add_one, h1, h2, h3]
      simp

theorem beVal_append (row : List ℕ) (b : ℕ) (hb : b ≤ 1) :
    beVal (row ++ [b]) = 2 * beVal row + b := by
  rw [beVal, beVal, List.foldl_append, List.foldl_cons, List.foldl_nil]
  exact shiftLeft_or_bit _ b hb

theorem beVal_lt (row : List ℕ) (h : ∀ b ∈ row, b ≤ 1) :
    beVal row < 2 ^ row.length := by
  induction row using List.reverseRecOn with
  | nil => simp [beVal]
  | append_singleton r b ih =>
    have hb : b ≤ 1 := h b (by simp)
    rw [beVal_append r b hb]
    have hr := ih (fun c hc => h c (by simp [hc]))
    rw [List.length_append, List.length_singleton, pow_add, pow_one]
    omega

theorem beVal_bits (row : List ℕ) (h : ∀ c ∈ row, c ≤ 1) :
    ∀ j, j < row.length →
      (beVal row >>> (row.length - j - 1)) &&& 1 = row.getD j 0 := by
  induction row using List.reverseRecOn with
  | nil => intro j hj; simp at hj
  | append_singleton r b ih =>
    intro j hj
    have hb : b ≤ 1 := h b (by simp)
    rw [beVal_append r b hb]
    rw [List.length_append, List.length_singleton] at hj ⊢
    rcases Nat.lt_or_ge j r.length with hjr | hjr
    · have hshift : r.length + 1 - j - 1 = (r.length - j - 1) + 1 := by omega
      rw [hshift, Nat.shiftRight_eq_div_pow]
      have hdiv : (2 * beVal r + b) / 2 ^ (r.length - j - 1 + 1)
          = beVal r / 2 ^ (r.length - j - 1) := by
        rw [pow_succ, mul_comm ((2:ℕ) ^ (r.length - j - 1)) 2, ← Nat.div_div_eq_div_mul]
        congr 1
        omega
      rw [hdiv, ← Nat.shiftRight_eq_div_pow]
      rw [List.getD_eq_getElem?_getD, List.getElem?_append_left hjr,
        ← List.getD_eq_getElem?_getD]
      exact ih (fun c hc => h c (by simp [hc])) j hjr
    · have hjeq : j = r.length := by omega
      subst hjeq
      have hshift : r.length + 1 - r.length - 1 = 0 := by omega
      rw [hshift, Nat.shiftRight_zero, Nat.and_one_is_mod]
      rw [List.getD_eq_getElem?_getD]
      rw [List.getElem?_append_right (le_refl r.length)]
      simp only [Nat.sub_self, List.getElem?_cons_zero, Option.getD_some]
      omega

theorem bits_of_beVal (row : List ℕ) (h : ∀ c ∈ row, c ≤ 1) (n : ℕ)
    (hn : row.length = n) :
    (List.range n).map (fun j => (beVal row >>> (n - j - 1)) &&& 1) = row := by
  apply List.ext_getElem
  · simp [hn]
  · intro j h1 h2
    simp only [List.getElem_map, List.getElem_range]
    rw [← hn]
    rw [← List.getD_eq_getElem row 0 h2]
    exact beVal_bits row h j h2

theorem chunks_join (n : ℕ) (_hn : 0 < n) :
    ∀ q (x : List ℕ), x.length = q * n →
      ((List.range q).map (reshapeRow x n)).flatten = x := by
  intro q
  induction q with
  | zero =>
    intro x hx
    simp at hx
    simp [hx]
  | succ q ih =>
    intro x hx
    rw [List.range_succ_eq_map, List.map_cons, List.flatten_cons, List.map_map]
    have hrow0 : reshapeRow x n 0 = x.take n := by simp [reshapeRow]
    have hrows : (List.range q).map (reshapeRow x n ∘ Nat.succ)
        = (List.range q).map (reshapeRow (x.drop n) n) := by
      apply List.map_congr_left
      intro i _
      simp only [Function.comp_apply, reshapeRow, List.drop_drop]
      congr 1
      simp only [Nat.succ_eq_add_one]
      ring_nf
    rw [hrow0, hrows, ih (x.drop n) (by rw [List.length_drop, hx]; ring_nf; omega)]
    exact List.take_append_drop n x

theorem reshapeRow_length (x : List ℕ) (n i : ℕ) (h : (i + 1) * n ≤ x.length) :
    (reshapeRow x n i).length = n := by
  rw [reshapeRow, List.length_take, List.length_drop]
  have : i * n + n ≤ x.length := by nlinarith
  omega

theorem reshapeRow_mem (x : List ℕ) (n i : ℕ) (c : ℕ)
    (hc : c ∈ reshapeRow x n i) : c ∈ x :=
  List.mem_of_mem_drop (List.mem_of_mem_take hc)

/-- C4 (amended): for every `m = 2^k` with `k ≥ 1` and every 0/1 bit array
whose length is a multiple of `k`, `sym2bi(bi2sym(x, m), m) == x`. -/
theorem sym2bi_bi2sym_roundtrip (k : ℕ) (hk : 1 ≤ k) (x : List ℕ)
    (hbits : ∀ b ∈ x, b ≤ 1) (hlen : k ∣ x.length) :
    (bi2sym x (2^k)).bind (fun s => sym2bi s (2^k)) = some x := by
  have hbits' : ¬ ∃ b ∈ x, 1 < b := by
    rintro ⟨b, hb, hb1⟩
    exact absurd (hbits b hb) (by omega)
  have hq : x.length = (x.length / k) * k := (Nat.div_mul_cancel hlen).symm
  rw [bi2sym]
  simp only [log2_two_pow]
  rw [if_neg (by simp), if_neg hbits', if_neg (by omega),
    if_neg (by simpa using hlen)]
  rw [Option.some_bind]
  have hrowlen : ∀ i ∈ List.range (x.length / k), (reshapeRow x k i).length = k := by
    intro i hi
    have hi' : i < x.length / k := List.mem_range.mp hi
    exact reshapeRow_length x k i (by nlinarith [hq])
  have hrowbits : ∀ i ∈ List.range (x.length / k), ∀ c ∈ reshapeRow x k i, c ≤ 1 :=
    fun i _ c hc => hbits c (reshapeRow_mem x k i c hc)
  rw [sym2bi]
  simp only [log2_two_pow]
  rw [if_neg (by simp)]
  have hvals : ¬ ∃ v ∈ ((List.range (x.length / k)).map (reshapeRow x k)).map beVal,
      2^k ≤ v := by
    rintro ⟨v, hv, hvge⟩
    rcases List.mem_map.mp hv with ⟨row, hrow, rfl⟩
    rcases List.mem_map.mp hrow with ⟨i, hi, rfl⟩
    have := beVal_lt (reshapeRow x k i) (hrowbits i hi)
    rw [hrowlen i hi] at this
    omega
  rw [if_neg hvals]
  congr 1
  rw [List.map_map]
  have hmap : ((List.range (x.length / k)).map (reshapeRow x k)).map
      ((fun v => (List.range k).map (fun j => (v >>> (k - j - 1)) &&& 1)) ∘ beVal)
      = (List.range (x.length / k)).map (reshapeRow x k) := by
    rw [List.map_map]
    apply List.map_congr_left
    intro i hi
    simp only [Function.comp_apply]
    exact bits_of_beVal (reshapeRow x k i) (hrowbits i hi) k (hrowlen i hi)
  rw [hmap]
  exact chunks_join k (by omega) (x.length / k) x hq

theorem sym2bi_bi2sym_roundtrip_witness :
    1 ≤ 2 ∧ (∀ b ∈ ([1, 0, 1, 1] : List ℕ), b ≤ 1) ∧
      2 ∣ ([1, 0, 1, 1] : List ℕ).length ∧
      (bi2sym [1, 0, 1, 1] (2^2)).bind (fun s => sym2bi s (2^2)) = some [1, 0, 1, 1] :=
  ⟨by decide, by decide, by decide,
    sym2bi_bi2sym_roundtrip 2 (by decide) [1, 0, 1, 1] (by decide) (by decide)⟩

/-- C4 counterexample: `m = 1` is a power of two and the empty bit array has
length `0`, a multiple of `log2(1) = 0`, yet `bi2sym([], 1)` raises
(`nsym = len(x)/n` is a division by zero), so the round trip does not
return the input. -/
theorem bi2sym_m_one_fails :
    (bi2sym ([] : List ℕ) 1).bind (fun s => sym2bi s 1) ≠ some [] := by
  have h1 : Nat.log2 1 = 0 := log2_two_pow 0
  simp [bi2sym, h1]

/-- `diff_encode(x)`: `y = insert(x, 0, 1)`, then `y[j] *= y[j-1]` in place
for `j = 2, ..., len(y)-1`.  Since `y[1]` is left equal to `x[0] = x[0] * y[0]`,
the result is the running product `y[0] = 1`, `y[j] = x[j-1] * y[j-1]`,
i.e. a `scanl`. -/
noncomputable def diff_encode (x : List ℂ) : List ℂ :=
  x.scanl (fun y a => a * y) 1

/-- `diff_decode(x)`: `y[1:] *= x[:-1].conj(); return y[1:]`, i.e. sample `j`
of the output is `x[j+1] * conj(x[j])`; one sample shorter than the input. -/
noncomputable def diff_decode (x : List ℂ) : List ℂ :=
  (x.zip x.tail).map (fun p => p.2 * (starRingEnd ℂ) p.1)

theorem diff_decode_cons2 (a b : ℂ) (t : List ℂ) :
    diff_decode (a :: b :: t) = (b * (starRingEnd ℂ) a) :: diff_decode (b :: t) := by
  simp [diff_decode]

theorem scanl_head (f : ℂ → ℂ → ℂ) (c : ℂ) (t : List ℂ) :
    ∃ rest, t.scanl f c = c :: rest := by
  cases t with
  | nil => exact ⟨[], rfl⟩
  | cons b t' => exact ⟨t'.scanl f (f c b), rfl⟩

theorem diff_decode_scanl (x : List ℂ) (hx : ∀ z ∈ x, Complex.abs z = 1) :
    ∀ y0 : ℂ, Complex.abs y0 = 1 →
      diff_decode (x.scanl (fun y a => a * y) y0) = x := by
  induction x with
  | nil =>
    intro y0 _
    simp [diff_decode]
  | cons a t ih =>
    intro y0 h0
    rw [List.scanl_cons, List.singleton_append]
    rcases scanl_head (fun y a => a * y) (a * y0) t with ⟨rest, hrest⟩
    rw [hrest, diff_decode_cons2, ← hrest]
    rw [ih (fun z hz => hx z (by simp [hz])) (a * y0)
      (by rw [map_mul, hx a (by simp), h0, one_mul])]
    congr 1
    rw [mul_assoc, Complex.mul_conj, Complex.normSq_eq_abs, h0]
    norm_num

/-- C5 counterexample: for `x = [2, 3]` (length ≥ 1) the round trip returns
`[2, 12]`, not `[2, 3]`: `diff_decode(diff_encode(x))[j] = x[j] * |prefix|²`,
which differs from `x[j]` as soon as some entry is off the unit circle. -/
theorem diff_roundtrip_counterexample :
    diff_decode (diff_encode [(2 : ℂ), 3]) ≠ [2, 3] := by
  have h : diff_decode (diff_encode [(2 : ℂ), 3]) = [2, 12] := by
    simp [diff_encode, diff_decode]
    norm_num [Complex.ext_iff]
  rw [h]
  intro hc
  simp only [List.cons.injEq] at hc
  exact absurd hc.2.1 (by norm_num)

/-- C5 (amended): for every complex sequence whose entries all have modulus 1
(the case produced by PSK/QAM-style signalling), `diff_decode(diff_encode(x))`
recovers `x`. -/
theorem diff_decode_diff_encode (x : List ℂ) (hx : ∀ z ∈ x, Complex.abs z = 1) :
    diff_decode (diff_encode x) = x :=
  diff_decode_scanl x hx 1 (map_one Complex.abs)

theorem diff_decode_diff_encode_witness :
    (∀ z ∈ [Complex.I], Complex.abs z = 1) ∧
      diff_decode (diff_encode [Complex.I]) = [Complex.I] :=
  ⟨by simp, diff_decode_diff_encode [Complex.I] (by simp)⟩

theorem scanl_abs_one (x : List ℂ) (hx : ∀ z ∈ x, Complex.abs z = 1) :
    ∀ y0 : ℂ, Complex.abs y0 = 1 →
      ∀ w ∈ x.scanl (fun y a => a * y) y0, Complex.abs w = 1 := by
  induction x with
  | nil =>
    intro y0 h0 w hw
    simp at hw
    simpa [hw] using h0
  | cons a t ih =>
    intro y0 h0 w hw
    rw [List.scanl_cons] at hw
    rcases List.mem_cons.mp hw with hw | hw
    · simpa [hw] using h0
    · exact ih (fun z hz => hx z (by simp [hz])) (a * y0)
        (by rw [map_mul, hx a (by simp), h0, one_mul]) w hw

/-- C10: if every entry of `x` has modulus 1, then every entry of
`diff_encode(x)` has modulus 1 as well (the reference sample `y[0] = 1`
included); this is the precondition under which the differential round trip
recovers the input exactly. -/
theorem diff_encode_unit_modulus (x : List ℂ) (hx : ∀ z ∈ x, Complex.abs z = 1) :
    ∀ w ∈ diff_encode x, Complex.abs w = 1 :=
  scanl_abs_one x hx 1 (map_one Complex.abs)

theorem diff_encode_unit_modulus_witness :
    (∀ z ∈ [(-1 : ℂ), Complex.I], Complex.abs z = 1) ∧
      ∀ w ∈ diff_encode [(-1 : ℂ), Complex.I], Complex.abs w = 1 :=
  ⟨by simp, diff_encode_unit_modulus [(-1 : ℂ), Complex.I] (by simp)⟩

/-- The module-level table `_popcount[i] = bin(i).count('1')` for `i < 64`. -/
def popcountTable : List ℕ :=
  (List.range 64).map (fun i => (Nat.digits 2 i).count 1)

/-- `ser(x, y)`: `float(count_nonzero(x ^ y)) / len(x)`.  The arrays must have
equal shapes (NumPy broadcasting raises otherwise); elementwise pairing is
modelled by `zip`. -/
noncomputable def ser (x y : List ℕ) : ℝ :=
  (((((x.zip y).map (fun p => p.1 ^^^ p.2)).countP (fun e => e != 0)) : ℕ) : ℝ)
    / (x.length : ℝ)

/-- `ber(x, y, m)`: validate `x, y ⊆ [0, m)`, fall back to `ser` for `m = 2`,
reject `m > 64`, then sum the population counts of the nonzero entries of
`x ^ y` via the table and divide by `len(x) * log2(m)`. -/
noncomputable def ber (x y : List ℕ) (m : ℕ) : Option ℝ :=
  if (∃ v ∈ x, m ≤ v) ∨ (∃ v ∈ y, m ≤ v) then none
  else if m = 2 then some (ser x y)
  else if 64 < m then none
  else some ((((((x.zip y).map (fun p => p.1 ^^^ p.2)).filter
      (fun e => e != 0)).map (fun e => popcountTable.getD e 0)).sum : ℝ)
    / ((x.length : ℝ) * Real.logb 2 m))

/-- `count_nonzero(x ^ y)` counts exactly the mismatched positions. -/
theorem ser_counts_mismatches (x y : List ℕ) :
    ser x y = (((x.zip y).countP (fun p => decide (p.1 ≠ p.2)) : ℕ) : ℝ)
      / (x.length : ℝ) := by
  rw [ser, List.countP_map]
  congr 2
  apply List.countP_congr
  intro p _
  rcases eq_or_ne p.1 p.2 with h | h
  · simp [Function.comp_apply, h]
  · have : p.1 ^^^ p.2 ≠ 0 := fun hc => h (Nat.xor_eq_zero.mp hc)
    simp [Function.comp_apply, h, this]

theorem logb_two_four : Real.logb 2 4 = 2 := by
  have h4 : (4 : ℝ) = 2 ^ (2 : ℕ) := by norm_num
  rw [h4, Real.logb_pow, Real.logb_self_eq_one (by norm_num)]
  norm_num

/-- C9: `ser([0,1,2,3],[0,1,2,2]) == 0.25` and
`ber([0,1,2,3],[0,1,2,2], m=4) == 0.125`:  `ser` is the fraction of
mismatched positions and `ber` the number of flipped bits over
`len(x) * log2(m)`. -/
theorem ser_ber_values :
    ser [0, 1, 2, 3] [0, 1, 2, 2] = 0.25 ∧
      ber [0, 1, 2, 3] [0, 1, 2, 2] 4 = some 0.125 := by
  constructor
  · have hc : ((([0, 1, 2, 3].zip [0, 1, 2, 2]).map
        (fun p => p.1 ^^^ p.2)).countP (fun e => e != 0)) = 1 := by decide
    rw [ser, hc]
    norm_num
  · rw [ber]
    rw [if_neg (by rintro (⟨v, hv, hge⟩ | ⟨v, hv, hge⟩) <;> (simp at hv; omega))]
    rw [if_neg (by norm_num), if_neg (by norm_num)]
    have hfilter : ((([0, 1, 2, 3].zip [0, 1, 2, 2]).map
        (fun p => p.1 ^^^ p.2)).filter (fun e => e != 0)) = [1] := by decide
    rw [hfilter]
    have hpc : popcountTable.getD 1 0 = 1 := by
      have h1 : Nat.digits 2 1 = [1] := by
        rw [Nat.digits_def' (by norm_num : (1:ℕ) < 2) (by norm_num)]
        norm_num
      rw [popcountTable, List.getD_eq_getElem _ _ (by simp)]
      simp [h1]
    simp only [List.map_cons, List.map_nil, List.sum_cons, List.sum_nil, hpc]
    norm_num [logb_two_four]

/-- NumPy fancy indexing `x[p]` with an index array `p` (all indices assumed
in range, as they are for the inverse Gray maps that use it). -/
def npSelect {α : Type} (p : List ℕ) (x : List α) (d : α) : List α :=
  p.map (fun j => x.getD j d)

/-- `mean(x**2)` of a real constellation. -/
noncomputable def meanSqR (l : List ℝ) : ℝ :=
  (l.map (fun v => v^2)).sum / (l.length : ℝ)

/-- `mean(abs(x)**2)` of a complex constellation. -/
noncomputable def meanSq (l : List ℂ) : ℝ :=
  (l.map (fun z => Complex.abs z^2)).sum / (l.length : ℝ)

/-- `ook()`: the constellation `[0, sqrt(2)]`. -/
noncomputable def ook : List ℝ := [0, Real.sqrt 2]

/-- The levels inside `pam(m, gray, centered)` before normalisation:
`x = arange(m)`, then `x -= mean(x)` if centered. -/
noncomputable def pamLevels (m : ℕ) (centered : Bool) : List ℝ :=
  if centered then ((List.range m).map (fun i : ℕ => (i : ℝ))).map
    (fun v => v - ((List.range m).map (fun i : ℕ => (i : ℝ))).sum / (m : ℝ))
  else (List.range m).map (fun i : ℕ => (i : ℝ))

/-- The normalisation step of `pam`: `x /= sqrt(mean(x**2))`. -/
noncomputable def pamBase (m : ℕ) (centered : Bool) : List ℝ :=
  (pamLevels m centered).map
    (fun v => v / Real.sqrt (((pamLevels m centered).map (fun w => w^2)).sum / (m : ℝ)))

/-- `pam(m, gray, centered)` after its validation: the Gray variant reorders
by `x[invert_map(gray_code(m))]`. -/
noncomputable def pamPoints (m : ℕ) (gray centered : Bool) : List ℝ :=
  if gray then npSelect (invert_map (gray_code m)) (pamBase m centered) 0
  else pamBase m centered

/-- `pam` raises when Gray coding is requested and `m` is not a power of 2. -/
noncomputable def pam (m : ℕ) (gray centered : Bool) : Option (List ℝ) :=
  if gray = true ∧ 2 ^ Nat.log2 m ≠ m then none
  else some (pamPoints m gray centered)

theorem map_getD_range {α : Type} (l : List α) (d : α) :
    (List.range l.length).map (fun i => l.getD i d) = l := by
  induction l with
  | nil => rfl
  | cons a t ih =>
    rw [List.length_cons, List.range_succ_eq_map, List.map_cons, List.map_map]
    congr 1

theorem perm_range_of_nodup_lt (p : List ℕ) (n : ℕ) (hnd : p.Nodup)
    (hlt : ∀ v ∈ p, v < n) (hlen : p.length = n) : p.Perm (List.range n) := by
  have hsub : p ⊆ List.range n := fun v hv => List.mem_range.mpr (hlt v hv)
  have hsp : List.Subperm p (List.range n) := List.subperm_of_subset hnd hsub
  exact hsp.perm_of_length_le (by simp [hlen])

theorem select_map_sum {α β : Type} [AddCommMonoid β] (p : List ℕ) (x : List α)
    (d : α) (f : α → β) (hp : p.Perm (List.range x.length)) :
    ((npSelect p x d).map f).sum = (x.map f).sum := by
  have h1 : ((npSelect p x d).map f).Perm ((List.range x.length).map (fun j => f (x.getD j d))) := by
    rw [npSelect, List.map_map]
    exact hp.map _
  rw [h1.sum_eq]
  rw [show (fun j => f (x.getD j d)) = f ∘ (fun j => x.getD j d) from rfl,
    ← List.map_map, map_getD_range]

theorem select_length {α : Type} (p : List ℕ) (x : List α) (d : α)
    (hp : p.Perm (List.range x.length)) : (npSelect p x d).length = x.length := by
  rw [npSelect, List.length_map, hp.length_eq, List.length_range]

theorem meanSqR_select (p : List ℕ) (x : List ℝ)
    (hp : p.Perm (List.range x.length)) : meanSqR (npSelect p x 0) = meanSqR x := by
  rw [meanSqR, meanSqR, select_map_sum p x 0 _ hp, select_length p x 0 hp]

theorem meanSq_select (p : List ℕ) (x : List ℂ)
    (hp : p.Perm (List.range x.length)) : meanSq (npSelect p x 0) = meanSq x := by
  rw [meanSq, meanSq, select_map_sum p x 0 _ hp, select_length p x 0 hp]

theorem exists_getD_eq (p : List ℕ) (n : ℕ) (hp : p.Perm (List.range n))
    (s : ℕ) (hs : s < n) : ∃ i, i < n ∧ p.getD i 0 = s := by
  have hmem : s ∈ p := hp.mem_iff.mpr (List.mem_range.mpr hs)
  rcases List.getElem_of_mem hmem with ⟨i, hi, hgi⟩
  have hin : i < n := by
    have := hp.length_eq
    rw [List.length_range] at this
    omega
  exact ⟨i, hin, by rw [List.getD_eq_getElem _ _ hi]; exact hgi⟩

theorem invert_map_perm (p : List ℕ) (n : ℕ) (hp : p.Perm (List.range n)) :
    (invert_map p).Perm (List.range n) := by
  have hlenp : p.length = n := by rw [hp.length_eq, List.length_range]
  have hnd : p.Nodup := hp.nodup_iff.mpr (List.nodup_range n)
  have hlt : ∀ v ∈ p, v < p.length := by
    intro v hv
    rw [hlenp]
    exact List.mem_range.mp (hp.subset hv)
  have hinv : ∀ i, i < n → (invert_map p).getD (p.getD i 0) 0 = i := by
    intro i hi
    exact scatter_getD p hlt hnd i (by omega)
  have hlen : (invert_map p).length = n := by rw [invert_map_length, hlenp]
  -- every slot of the inverse holds the index that maps onto it
  have hslot : ∀ s, s < n → ∃ i, i < n ∧ p.getD i 0 = s ∧ (invert_map p).getD s 0 = i := by
    intro s hs
    rcases exists_getD_eq p n hp s hs with ⟨i, hi, hgi⟩
    exact ⟨i, hi, hgi, by rw [← hgi]; exact hinv i hi⟩
  have hltinv : ∀ v ∈ invert_map p, v < n := by
    intro v hv
    rcases List.getElem_of_mem hv with ⟨s, hsl, hgs⟩
    have hsn : s < n := by rw [hlen] at hsl; exact hsl
    rcases hslot s hsn with ⟨i, hi, _, hval⟩
    rw [List.getD_eq_getElem _ 0 hsl, hgs] at hval
    omega
  have hndinv : (invert_map p).Nodup := by
    rw [List.nodup_iff_injective_getElem]
    rintro ⟨a, ha⟩ ⟨b, hb⟩ hab
    simp only at hab
    have han : a < n := by rw [hlen] at ha; exact ha
    have hbn : b < n := by rw [hlen] at hb; exact hb
    rcases hslot a han with ⟨i, hi, hpi, hvi⟩
    rcases hslot b hbn with ⟨j, hj, hpj, hvj⟩
    rw [List.getD_eq_getElem _ 0 ha] at hvi
    rw [List.getD_eq_getElem _ 0 hb] at hvj
    have hij : i = j := by rw [hvi, hvj] at hab; exact hab
    apply Fin.mk_eq_mk.mpr
    rw [← hpi, ← hpj, hij]
  exact perm_range_of_nodup_lt _ n hndinv hltinv hlen

theorem gray_code_perm_range (k : ℕ) :
    (gray_code (2^k)).Perm (List.range (2^k)) :=
  perm_range_of_nodup_lt _ _ (gray_code_nodup _) (gray_code_lt k)
    (gray_code_length _)

theorem sum_map_sq_div (l : List ℝ) (s : ℝ) :
    ((l.map (fun v => v / s)).map (fun v => v^2)).sum
      = ((l.map (fun v => v^2)).sum) / s^2 := by
  induction l with
  | nil => simp
  | cons a t ih =>
    simp only [List.map_cons, List.sum_cons, ih, div_pow]
    rw [div_add_div_same]

theorem sum_map_sq_abs_div (l : List ℂ) (s : ℝ) (hs : 0 ≤ s) :
    ((l.map (fun z => z / (s : ℂ))).map (fun z => Complex.abs z^2)).sum
      = ((l.map (fun z => Complex.abs z^2)).sum) / s^2 := by
  induction l with
  | nil => simp
  | cons a t ih =>
    simp only [List.map_cons, List.sum_cons, ih]
    rw [map_div₀ Complex.abs, Complex.abs_ofReal, abs_of_nonneg hs, div_pow,
      div_add_div_same]

theorem sum_sq_nonneg_mem (l : List ℝ) : ∀ v ∈ l.map (fun w => w^2), 0 ≤ v := by
  intro v hv
  rcases List.mem_map.mp hv with ⟨w, _, rfl⟩
  exact sq_nonneg w

theorem sum_sq_pos_of_mem (l : List ℝ) (v : ℝ) (hv : v ∈ l) (hv0 : v ≠ 0) :
    0 < (l.map (fun w => w^2)).sum := by
  have hmem : v^2 ∈ l.map (fun w => w^2) := List.mem_map_of_mem _ hv
  have hle := List.single_le_sum (sum_sq_nonneg_mem l) _ hmem
  have hpos : 0 < v^2 := by positivity
  linarith

theorem abs_sq_pos_of_mem (l : List ℂ) (z : ℂ) (hz : z ∈ l) (hz0 : z ≠ 0) :
    0 < (l.map (fun w => Complex.abs w^2)).sum := by
  have hmem : Complex.abs z^2 ∈ l.map (fun w => Complex.abs w^2) :=
    List.mem_map_of_mem _ hz
  have hnn : ∀ v ∈ l.map (fun w => Complex.abs w^2), 0 ≤ v := by
    intro v hv
    rcases List.mem_map.mp hv with ⟨w, _, rfl⟩
    positivity
  have hle := List.single_le_sum hnn _ hmem
  have hpos : 0 < Complex.abs z^2 := by
    have := Complex.abs.pos hz0
    positivity
  linarith

/-- Dividing a real list by `sqrt(mean(x**2))` gives unit mean square,
provided the sum of squares is positive. -/
theorem normalize_meanSqR (x1 : List ℝ) (m : ℕ) (hlen : x1.length = m)
    (hpos : 0 < (x1.map (fun w => w^2)).sum) (hm : 0 < m) :
    meanSqR (x1.map (fun v =>
      v / Real.sqrt ((x1.map (fun w => w^2)).sum / (m : ℝ)))) = 1 := by
  have hmR : (0 : ℝ) < m := by exact_mod_cast hm
  have hS : (0 : ℝ) < (x1.map (fun w => w^2)).sum / m := by positivity
  rw [meanSqR, sum_map_sq_div, List.length_map, hlen,
    Real.sq_sqrt (le_of_lt hS)]
  rw [div_div_eq_mul_div, mul_comm, mul_div_assoc, div_self (by linarith),
    mul_one, div_self (by linarith)]

/-- Dividing a complex list by `sqrt(mean(abs(x)**2))` gives unit mean
square, provided the sum of squared magnitudes is positive. -/
theorem normalize_meanSq (l : List ℂ) (m : ℕ) (hlen : l.length = m)
    (hpos : 0 < (l.map (fun z => Complex.abs z^2)).sum) (hm : 0 < m) :
    meanSq (l.map (fun z =>
      z / ((Real.sqrt ((l.map (fun z => Complex.abs z^2)).sum / (m : ℝ)) : ℝ) : ℂ))) = 1 := by
  have hmR : (0 : ℝ) < m := by exact_mod_cast hm
  have hS : (0 : ℝ) < (l.map (fun z => Complex.abs z^2)).sum / m := by positivity
  rw [meanSq, sum_map_sq_abs_div _ _ (Real.sqrt_nonneg _), List.length_map, hlen,
    Real.sq_sqrt (le_of_lt hS)]
  rw [div_div_eq_mul_div, mul_comm, mul_div_assoc, div_self (by linarith),
    mul_one, div_self (by linarith)]

theorem pamLevels_length (m : ℕ) (centered : Bool) :
    (pamLevels m centered).length = m := by
  rw [pamLevels]
  cases centered
  · rw [if_neg (by simp), List.length_map, List.length_range]
  · rw [if_pos rfl, List.length_map, List.length_map, List.length_range]

theorem pamLevels_sq_sum_pos (m : ℕ) (hm : 2 ≤ m) :
    0 < ((pamLevels m true).map (fun w => w^2)).sum := by
  rw [pamLevels, if_pos rfl]
  set c := ((List.range m).map (fun i : ℕ => (i : ℝ))).sum / (m : ℝ) with hc
  have h0 : ((0 : ℝ) - c) ∈ ((List.range m).map (fun i : ℕ => (i : ℝ))).map
      (fun v => v - c) := by
    have h00 : ((0 : ℕ) : ℝ) ∈ (List.range m).map (fun i : ℕ => (i : ℝ)) :=
      List.mem_map_of_mem _ (List.mem_range.mpr (by omega))
    have h01 := List.mem_map_of_mem (fun v => v - c) h00
    push_cast at h01
    exact h01
  have h1 : ((1 : ℝ) - c) ∈ ((List.range m).map (fun i : ℕ => (i : ℝ))).map
      (fun v => v - c) := by
    have h10 : ((1 : ℕ) : ℝ) ∈ (List.range m).map (fun i : ℕ => (i : ℝ)) :=
      List.mem_map_of_mem _ (List.mem_range.mpr (by omega))
    have h11 := List.mem_map_of_mem (fun v => v - c) h10
    push_cast at h11
    exact h11
  rcases eq_or_ne c 0 with hc0 | hc0
  · exact sum_sq_pos_of_mem _ _ h1 (by rw [hc0]; norm_num)
  · exact sum_sq_pos_of_mem _ _ h0 (by simpa using hc0)

theorem pamBase_centered_unit (m : ℕ) (hm : 2 ≤ m) :
    meanSqR (pamBase m true) = 1 := by
  rw [pamBase]
  exact normalize_meanSqR _ m (pamLevels_length m true)
    (pamLevels_sq_sum_pos m hm) (by omega)

/-- `np.round(t, decimals=8)`.  NumPy rounds half to even while `round`
rounds half up; they agree except at exact half-ulp ties, and every bound
proved here uses only `|round8 t - t| ≤ 5e-9`, which holds for both. -/
noncomputable def round8 (t : ℝ) : ℝ := ((round (t * 10^8) : ℤ) : ℝ) / 10^8

/-- The points of `psk(m, phase0)` before Gray reordering:
`round(exp(1j*(2*pi/m*arange(m) + phase0)), decimals=8)`, written through
`exp(1j*θ) = cos θ + 1j*sin θ`. -/
noncomputable def pskBase (m : ℕ) (phase0 : ℝ) : List ℂ :=
  (List.range m).map (fun k : ℕ =>
    ((round8 (Real.cos (2 * Real.pi / m * k + phase0)) : ℝ) : ℂ)
      + ((round8 (Real.sin (2 * Real.pi / m * k + phase0)) : ℝ) : ℂ) * Complex.I)

/-- `psk(m, phase0, gray)`: the Gray variant reorders by
`x[invert_map(gray_code(m))]` (well formed only for power-of-two `m`). -/
noncomputable def pskPoints (m : ℕ) (phase0 : ℝ) (gray : Bool) : List ℂ :=
  if gray then npSelect (invert_map (gray_code m)) (pskBase m phase0) 0
  else pskBase m phase0

theorem round8_close (t : ℝ) : |round8 t - t| ≤ 5e-9 := by
  have h := abs_sub_round (t * 10^8)
  rw [abs_sub_comm] at h
  have h8 : (0 : ℝ) < 10^8 := by norm_num
  have heq : round8 t - t
      = (((round (t * 10^8) : ℤ) : ℝ) - t * 10^8) / 10^8 := by
    rw [round8]
    field_simp
    ring
  rw [heq, abs_div, abs_of_pos h8, div_le_iff₀ h8]
  calc |((round (t * 10^8) : ℤ) : ℝ) - t * 10^8| ≤ 1 / 2 := h
  _ ≤ 5e-9 * 10^8 := by norm_num

theorem psk_point_energy_close (θ : ℝ) :
    |(round8 (Real.cos θ))^2 + (round8 (Real.sin θ))^2 - 1| ≤ 2.1e-8 := by
  have hc := round8_close (Real.cos θ)
  have hs := round8_close (Real.sin θ)
  have hc1 : |Real.cos θ| ≤ 1 := Real.abs_cos_le_one θ
  have hs1 : |Real.sin θ| ≤ 1 := Real.abs_sin_le_one θ
  have hpyth : Real.sin θ^2 + Real.cos θ^2 = 1 := Real.sin_sq_add_cos_sq θ
  set a := round8 (Real.cos θ) with ha
  set b := round8 (Real.sin θ) with hb
  set c := Real.cos θ with hcc
  set s := Real.sin θ with hss
  have hd1 : |2*c*(a - c)| ≤ 1e-8 := by
    rw [abs_mul, abs_mul, abs_two]
    calc 2 * |c| * |a - c| ≤ 2 * 1 * 5e-9 := by
          apply mul_le_mul _ hc (abs_nonneg _) (by norm_num)
          apply mul_le_mul_of_nonneg_left hc1 (by norm_num)
    _ = 1e-8 := by norm_num
  have hd2 : |2*s*(b - s)| ≤ 1e-8 := by
    rw [abs_mul, abs_mul, abs_two]
    calc 2 * |s| * |b - s| ≤ 2 * 1 * 5e-9 := by
          apply mul_le_mul _ hs (abs_nonneg _) (by norm_num)
          apply mul_le_mul_of_nonneg_left hs1 (by norm_num)
    _ = 1e-8 := by norm_num
  have hq1 : (a - c)^2 ≤ 2.5e-17 := by
    rw [abs_le] at hc
    have : (a - c)^2 ≤ (5e-9)^2 := sq_le_sq' (by linarith) (by linarith)
    linarith [this]
  have hq2 : (b - s)^2 ≤ 2.5e-17 := by
    rw [abs_le] at hs
    have : (b - s)^2 ≤ (5e-9)^2 := sq_le_sq' (by linarith) (by linarith)
    linarith [this]
  have hE : a^2 + b^2 - 1
      = ((a - c)^2 + 2*c*(a - c)) + ((b - s)^2 + 2*s*(b - s))
        + (s^2 + c^2 - 1) := by ring
  rw [hE, hpyth, sub_self, add_zero]
  calc |((a - c)^2 + 2*c*(a - c)) + ((b - s)^2 + 2*s*(b - s))|
      ≤ |(a - c)^2 + 2*c*(a - c)| + |(b - s)^2 + 2*s*(b - s)| := abs_add _ _
  _ ≤ (|(a - c)^2| + |2*c*(a - c)|) + (|(b - s)^2| + |2*s*(b - s)|) :=
      add_le_add (abs_add _ _) (abs_add _ _)
  _ ≤ (2.5e-17 + 1e-8) + (2.5e-17 + 1e-8) := by
      rw [abs_of_nonneg (sq_nonneg (a - c)), abs_of_nonneg (sq_nonneg (b - s))]
      exact add_le_add (add_le_add hq1 hd1) (add_le_add hq2 hd2)
  _ ≤ 2.1e-8 := by norm_num

theorem abs_list_sum_le (l : List ℝ) : |l.sum| ≤ (l.map (fun v => |v|)).sum := by
  induction l with
  | nil => simp
  | cons a t ih =>
    simp only [List.sum_cons, List.map_cons]
    calc |a + t.sum| ≤ |a| + |t.sum| := abs_add _ _
    _ ≤ |a| + (t.map (fun v => |v|)).sum := by linarith

theorem sum_sub_length (l : List ℝ) :
    l.sum - (l.length : ℝ) = (l.map (fun v => v - 1)).sum := by
  induction l with
  | nil => simp
  | cons a t ih =>
    simp only [List.sum_cons, List.length_cons, List.map_cons]
    push_cast
    linarith [ih]

theorem mean_close_one (l : List ℝ) (hne : l ≠ []) (ε : ℝ)
    (h : ∀ v ∈ l, |v - 1| ≤ ε) : |l.sum / (l.length : ℝ) - 1| ≤ ε := by
  have hlen : (0 : ℝ) < l.length := by
    have := List.length_pos.mpr hne
    exact_mod_cast this
  have h1 : l.sum / (l.length : ℝ) - 1 = (l.sum - l.length) / l.length := by
    field_simp
  rw [h1, sum_sub_length, abs_div, abs_of_pos hlen, div_le_iff₀ hlen]
  calc |(l.map (fun v => v - 1)).sum| ≤ ((l.map (fun v => v - 1)).map (fun v => |v|)).sum :=
      abs_list_sum_le _
  _ ≤ ((l.map (fun v => v - 1)).map (fun v => |v|)).length • ε := by
      apply List.sum_le_card_nsmul
      intro v hv
      rcases List.mem_map.mp hv with ⟨w, hw, rfl⟩
      rcases List.mem_map.mp hw with ⟨u, hu, rfl⟩
      exact h u hu
  _ = ε * l.length := by
      rw [List.length_map, List.length_map]
      rw [nsmul_eq_mul, mul_comm]

/-- `np.mean` of a complex array. -/
noncomputable def npMeanC (l : List ℂ) : ℂ := l.sum / (l.length : ℂ)

/-- `np.std` of a complex array: `sqrt(mean(abs(x - mean(x))**2))`
(population standard deviation). -/
noncomputable def npStd (l : List ℂ) : ℝ :=
  Real.sqrt ((l.map (fun z => Complex.abs (z - npMeanC l)^2)).sum
    / (l.length : ℝ))

/-- The n×n grid `x[r, i] = r + 1j*i` of `qam`, ravelled row-major. -/
noncomputable def qamGrid (n : ℕ) : List ℂ :=
  ((List.range n).map (fun r : ℕ => (List.range n).map
    (fun i : ℕ => (r : ℂ) + Complex.I * (i : ℂ)))).flatten

/-- The grid after `x -= mean(x)`. -/
noncomputable def qamCentered (n : ℕ) : List ℂ :=
  (qamGrid n).map (fun z => z - npMeanC (qamGrid n))

/-- The points of `qam(m)` before Gray reordering: centre, then `x /= std(x)`. -/
noncomputable def qamBase (m : ℕ) : List ℂ :=
  (qamCentered (Nat.sqrt m)).map
    (fun z => z / ((npStd (qamCentered (Nat.sqrt m)) : ℝ) : ℂ))

/-- The boustrophedon ordering used by `qam`'s Gray coding: reshape
`gray_code(m)` to n×n, flip every odd row (`flipud`), ravel. -/
def qamSnake (n : ℕ) : List ℕ :=
  ((List.range n).map (fun r =>
    if r % 2 = 1 then (reshapeRow (gray_code (n * n)) n r).reverse
    else reshapeRow (gray_code (n * n)) n r)).flatten

/-- `qam(m, gray)`: the Gray variant reorders by the inverted snake map. -/
noncomputable def qamPoints (m : ℕ) (gray : Bool) : List ℂ :=
  if gray then npSelect (invert_map (qamSnake (Nat.sqrt m))) (qamBase m) 0
  else qamBase m

/-- `qam` raises unless `m` is a perfect square. -/
noncomputable def qam (m : ℕ) (gray : Bool) : Option (List ℂ) :=
  if Nat.sqrt m * Nat.sqrt m ≠ m then none else some (qamPoints m gray)

theorem qamGrid_length (n : ℕ) : (qamGrid n).length = n * n := by
  rw [qamGrid, List.length_flatten, List.map_map]
  have h : (List.range n).map (List.length ∘ fun r : ℕ => (List.range n).map
      (fun i : ℕ => (r : ℂ) + Complex.I * (i : ℂ)))
      = (List.range n).map (fun _ => n) := by
    apply List.map_congr_left
    intro r _
    simp
  rw [h]
  rw [List.map_const', List.sum_replicate, List.length_range, smul_eq_mul]

theorem qamCentered_length (n : ℕ) : (qamCentered n).length = n * n := by
  rw [qamCentered, List.length_map, qamGrid_length]

theorem sum_map_sub_const (l : List ℂ) (c : ℂ) :
    (l.map (fun z => z - c)).sum = l.sum - (l.length : ℂ) * c := by
  induction l with
  | nil => simp
  | cons a t ih =>
    simp only [List.map_cons, List.sum_cons, List.length_cons, ih]
    push_cast
    ring

theorem qamCentered_sum (n : ℕ) (hn : 1 ≤ n) : (qamCentered n).sum = 0 := by
  rw [qamCentered, sum_map_sub_const, npMeanC, qamGrid_length]
  have hne : ((n * n : ℕ) : ℂ) ≠ 0 := by
    rw [Nat.cast_ne_zero]
    positivity
  rw [mul_div_cancel₀ _ hne, sub_self]

theorem mem_qamGrid (n : ℕ) (r i : ℕ) (hr : r < n) (hi : i < n) :
    ((r : ℂ) + Complex.I * (i : ℂ)) ∈ qamGrid n := by
  rw [qamGrid, List.mem_flatten]
  refine ⟨(List.range n).map (fun i : ℕ => (r : ℂ) + Complex.I * (i : ℂ)), ?_, ?_⟩
  · exact List.mem_map_of_mem _ (List.mem_range.mpr hr)
  · exact List.mem_map_of_mem _ (List.mem_range.mpr hi)

theorem zero_mem_qamGrid (n : ℕ) (hn : 1 ≤ n) : (0 : ℂ) ∈ qamGrid n := by
  have := mem_qamGrid n 0 0 (by omega) (by omega)
  simpa using this

theorem I_mem_qamGrid (n : ℕ) (hn : 2 ≤ n) : Complex.I ∈ qamGrid n := by
  have := mem_qamGrid n 0 1 (by omega) (by omega)
  simpa using this

theorem qamCentered_sq_sum_pos (n : ℕ) (hn : 2 ≤ n) :
    0 < ((qamCentered n).map (fun z => Complex.abs z^2)).sum := by
  set mu := npMeanC (qamGrid n) with hmu
  have h0 : ((0 : ℂ) - mu) ∈ qamCentered n :=
    List.mem_map_of_mem _ (zero_mem_qamGrid n (by omega))
  have hI : (Complex.I - mu) ∈ qamCentered n :=
    List.mem_map_of_mem _ (I_mem_qamGrid n hn)
  rcases eq_or_ne mu 0 with hmu0 | hmu0
  · refine abs_sq_pos_of_mem _ _ hI ?_
    rw [hmu0, sub_zero]
    exact Complex.I_ne_zero
  · refine abs_sq_pos_of_mem _ _ h0 ?_
    rw [zero_sub, neg_ne_zero]
    exact hmu0

theorem qamBase_unit (n : ℕ) (hn : 2 ≤ n) : meanSq (qamBase (n * n)) = 1 := by
  have hsq : Nat.sqrt (n * n) = n := Nat.sqrt_eq n
  have hlen : (qamCentered n).length = n * n := qamCentered_length n
  have hmap : (qamCentered n).map
        (fun z => Complex.abs (z - 0 / ((n * n : ℕ) : ℂ))^2)
      = (qamCentered n).map (fun z => Complex.abs z^2) := by
    apply List.map_congr_left
    intro z _
    rw [zero_div, sub_zero]
  have hstd : npStd (qamCentered n)
      = Real.sqrt (((qamCentered n).map (fun z => Complex.abs z^2)).sum
        / ((n * n : ℕ) : ℝ)) := by
    rw [npStd, npMeanC, qamCentered_sum n (by omega), hlen, hmap]
  rw [qamBase, hsq, hstd]
  exact normalize_meanSq _ (n * n) hlen (qamCentered_sq_sum_pos n hn)
    (by positivity)

theorem flatten_perm_of_forall₂ {α : Type} (l₁ l₂ : List (List α))
    (h : List.Forall₂ (fun a b => a.Perm b) l₁ l₂) :
    l₁.flatten.Perm l₂.flatten := by
  induction h with
  | nil => simp
  | cons hab _ ih =>
    rw [List.flatten_cons, List.flatten_cons]
    exact hab.append ih

theorem qamSnake_perm_gray (n : ℕ) :
    (qamSnake n).Perm (gray_code (n * n)) := by
  have hchunks : ((List.range n).map (reshapeRow (gray_code (n * n)) n)).flatten
      = gray_code (n * n) := by
    rcases Nat.eq_zero_or_pos n with hn0 | hn0
    · subst hn0
      simp [gray_code]
    · exact chunks_join n hn0 n (gray_code (n * n))
        (by rw [gray_code_length])
  have hperm : (qamSnake n).Perm
      (((List.range n).map (reshapeRow (gray_code (n * n)) n)).flatten) := by
    rw [qamSnake]
    apply flatten_perm_of_forall₂
    rw [List.forall₂_map_right_iff, List.forall₂_map_left_iff]
    apply List.forall₂_same.mpr
    intro r _
    by_cases hr : r % 2 = 1
    · rw [if_pos hr]
      exact (reshapeRow (gray_code (n * n)) n r).reverse_perm
    · rw [if_neg hr]
  rw [hchunks] at hperm
  exact hperm

theorem qamSnake_perm_range (j : ℕ) :
    (qamSnake (2^j)).Perm (List.range (2^j * 2^j)) := by
  have h1 := qamSnake_perm_gray (2^j)
  have h2 : (gray_code (2^j * 2^j)).Perm (List.range (2^j * 2^j)) := by
    have : (2:ℕ)^j * 2^j = 2^(j + j) := by rw [pow_add]
    rw [this]
    exact gray_code_perm_range (j + j)
  exact h1.trans h2

theorem pskBase_energy (m : ℕ) (hm : 1 ≤ m) (phase0 : ℝ) :
    |meanSq (pskBase m phase0) - 1| ≤ 2.1e-8 := by
  rw [meanSq]
  have hlen : ((pskBase m phase0).map (fun z => Complex.abs z^2)).length
      = (pskBase m phase0).length := List.length_map _ _
  rw [← hlen]
  apply mean_close_one
  · intro hc
    have hlen2 : (pskBase m phase0).length = m := by
      rw [pskBase, List.length_map, List.length_range]
    have hz : ((pskBase m phase0).map (fun z => Complex.abs z^2)).length = 0 := by
      rw [hc]
      rfl
    rw [List.length_map, hlen2] at hz
    omega
  · intro v hv
    rcases List.mem_map.mp hv with ⟨z, hz, rfl⟩
    rw [pskBase] at hz
    rcases List.mem_map.mp hz with ⟨k, _, rfl⟩
    rw [Complex.sq_abs, Complex.normSq_add_mul_I]
    exact psk_point_energy_close _

theorem pamBase_length (m : ℕ) (centered : Bool) :
    (pamBase m centered).length = m := by
  rw [pamBase, List.length_map, pamLevels_length]

theorem pskBase_length (m : ℕ) (phase0 : ℝ) : (pskBase m phase0).length = m := by
  rw [pskBase, List.length_map, List.length_range]

theorem qamBase_length (n : ℕ) : (qamBase (n * n)).length = n * n := by
  rw [qamBase, List.length_map, Nat.sqrt_eq, qamCentered_length]

theorem two_le_two_pow (k : ℕ) (hk : 1 ≤ k) : 2 ≤ 2^k := by
  calc (2 : ℕ) = 2^1 := (pow_one 2).symm
  _ ≤ 2^k := Nat.pow_le_pow_right (by norm_num) hk

theorem pam_gray_unit (k : ℕ) (hk : 1 ≤ k) :
    meanSqR (pamPoints (2^k) true true) = 1 := by
  rw [pamPoints, if_pos rfl]
  rw [meanSqR_select _ _ (by
    rw [pamBase_length]
    exact invert_map_perm _ _ (gray_code_perm_range k))]
  exact pamBase_centered_unit (2^k) (two_le_two_pow k hk)

theorem psk_gray_energy (k : ℕ) (phase0 : ℝ) :
    |meanSq (pskPoints (2^k) phase0 true) - 1| ≤ 2.1e-8 := by
  rw [pskPoints, if_pos rfl]
  rw [meanSq_select _ _ (by
    rw [pskBase_length]
    exact invert_map_perm _ _ (gray_code_perm_range k))]
  exact pskBase_energy (2^k) (Nat.one_le_pow _ _ (by norm_num)) phase0

theorem qam_gray_unit (j : ℕ) (hj : 1 ≤ j) :
    meanSq (qamPoints ((2^j) * (2^j)) true) = 1 := by
  rw [qamPoints, if_pos rfl, Nat.sqrt_eq]
  rw [meanSq_select _ _ (by
    rw [qamBase_length]
    exact invert_map_perm _ _ (qamSnake_perm_range j))]
  exact qamBase_unit (2^j) (two_le_two_pow j hj)

theorem ook_unit : meanSqR ook = 1 := by
  rw [meanSqR, ook]
  simp only [List.map_cons, List.map_nil, List.sum_cons, List.sum_nil,
    List.length_cons, List.length_nil]
  rw [Real.sq_sqrt (by norm_num : (0:ℝ) ≤ 2)]
  norm_num

/-- C2 counterexample: `pam(1)` has valid parameters (`m = 1` is a power of
two, `centered=True`) but normalises `[0.0]` by `sqrt(mean([0.0]**2)) = 0`;
NumPy produces `[nan]` from `0.0/0.0` and the mean squared magnitude is not
1 (in this exact model the division by zero gives 0, and NumPy's `nan` is
likewise not 1). -/
theorem pam_one_not_unit : meanSqR (pamPoints 1 false true) ≠ 1 := by
  have h1 : pamLevels 1 true = [0] := by
    rw [pamLevels, if_pos rfl]
    norm_num [List.range_succ]
  have h2 : pamBase 1 true = [0] := by
    rw [pamBase, h1]
    simp
  rw [pamPoints, if_neg (by simp), h2, meanSqR]
  simp

/-- C2 (amended): every generated constellation with at least two points has
unit average energy per symbol: exactly 1 for `ook()`, for centered `pam(m)`
with `m ≥ 2` (Gray variant for `m = 2^k`, `k ≥ 1`), and for `qam(n*n)` with
`n ≥ 2` (Gray variant for `n = 2^j`, `j ≥ 1`); `psk(m, phase0)` is within
`2.1e-8` of 1 for every `m ≥ 1` and every phase, because its points are
rounded to 8 decimal places.  The degenerate `m = 1` case divides by zero. -/
theorem constellation_unit_energy :
    meanSqR ook = 1
    ∧ (∀ m : ℕ, 2 ≤ m → meanSqR (pamPoints m false true) = 1)
    ∧ (∀ k : ℕ, 1 ≤ k → meanSqR (pamPoints (2^k) true true) = 1)
    ∧ (∀ m : ℕ, ∀ phase0 : ℝ, 1 ≤ m →
        |meanSq (pskPoints m phase0 false) - 1| ≤ 2.1e-8)
    ∧ (∀ k : ℕ, ∀ phase0 : ℝ,
        |meanSq (pskPoints (2^k) phase0 true) - 1| ≤ 2.1e-8)
    ∧ (∀ n : ℕ, 2 ≤ n → meanSq (qamPoints (n * n) false) = 1)
    ∧ (∀ j : ℕ, 1 ≤ j → meanSq (qamPoints ((2^j) * (2^j)) true) = 1) := by
  refine ⟨ook_unit, ?_, pam_gray_unit, ?_, psk_gray_energy, ?_, qam_gray_unit⟩
  · intro m hm
    rw [pamPoints, if_neg (by simp)]
    exact pamBase_centered_unit m hm
  · intro m phase0 hm
    rw [pskPoints, if_neg (by simp)]
    exact pskBase_energy m hm phase0
  · intro n hn
    rw [qamPoints, if_neg (by simp)]
    exact qamBase_unit n hn

/-- `modulate(data, const) = ravel(const[data])` for a scalar (1-D)
constellation (`ravel` is the identity there).  NumPy integer fancy indexing
accepts indices in `[-len, len)`, wrapping a negative index `i` to
`len + i`, and raises `IndexError` for anything outside that range. -/
noncomputable def modulate (data : List ℤ) (const : List ℂ) : Option (List ℂ) :=
  if ∀ i ∈ data, -(const.length : ℤ) ≤ i ∧ i < (const.length : ℤ) then
    some (data.map (fun i => const.getD
      (if 0 ≤ i then i.toNat else ((const.length : ℤ) + i).toNat) 0))
  else none

/-- `np.argmin` over one row of metric values: the first index attaining the
minimum, written as a left-to-right scan. -/
noncomputable def argminAux : List ℝ → ℝ → ℕ → ℕ → ℕ
  | [], _, _, best => best
  | v :: rest, bv, i, best =>
    if v < bv then argminAux rest v (i+1) i else argminAux rest bv (i+1) best

noncomputable def argmin : List ℝ → ℕ
  | [] => 0
  | v :: rest => argminAux rest v 1 0

/-- `demodulate(x, const)` with the default metric selection and the default
arg-min decision rule, for scalar constellations: when the constellation is
effectively real (`all(abs(const.imag) < 1e-6)`) and non-negative
(`all(const.real >= 0)`), the incoherent metric `abs(abs(a) - b)` is used,
otherwise the Euclidean metric `abs(a - b)`.  (The `ndim == 2`
matched-filter branch serves vector constellations, which a 1-D `List ℂ`
cannot represent.) -/
noncomputable def demodulate (x : List ℂ) (const : List ℂ) : List ℕ :=
  if (∀ c ∈ const, |c.im| < 1e-6) ∧ (∀ c ∈ const, 0 ≤ c.re) then
    x.map (fun a => argmin (const.map (fun b =>
      Complex.abs (((Complex.abs a : ℝ) : ℂ) - b))))
  else
    x.map (fun a => argmin (const.map (fun b => Complex.abs (a - b))))

/-- `demodulate` with its symbol indices read back as integers, for
comparison with the integer symbol stream fed to `modulate`. -/
noncomputable def demodZ (x : List ℂ) (const : List ℂ) : List ℤ :=
  (demodulate x const).map (fun n : ℕ => (n : ℤ))

/-- A real constellation handed to the complex-valued pipeline. -/
noncomputable def toC (l : List ℝ) : List ℂ := l.map (fun r => (r : ℂ))

/-- C8 counterexample: `modulate([-1], ook())` does not raise: NumPy accepts
the negative symbol `-1` and silently wraps it to the last constellation
point, although `-1` lies outside `[0, m)`. -/
theorem modulate_negative_no_error : modulate [-1] (toC ook) ≠ none := by
  rw [modulate, if_pos ?hb]
  · simp
  case hb =>
    intro i hi
    simp only [List.mem_singleton] at hi
    subst hi
    constructor <;> simp [toC, ook]

/-- C8 (amended): `modulate(data, const)` raises exactly when some symbol
lies outside `[-m, m)`; symbols in `[0, m)` index directly and symbols in
`[-m, -1]` are accepted and wrap to `const[m + s]` (Python indexing), so a
negative symbol in `[-m, -1]` does NOT raise. -/
theorem modulate_error_iff (data : List ℤ) (const : List ℂ) :
    modulate data const = none ↔
      ∃ s ∈ data, s < -(const.length : ℤ) ∨ (const.length : ℤ) ≤ s := by
  rw [modulate]
  by_cases h : ∀ i ∈ data, -(const.length : ℤ) ≤ i ∧ i < (const.length : ℤ)
  · rw [if_pos h]
    constructor
    · intro hc
      exact absurd hc (by simp)
    · rintro ⟨s, hs, hout⟩
      rcases h s hs with ⟨h1, h2⟩
      rcases hout with h3 | h3 <;> omega
  · rw [if_neg h]
    push_neg at h
    rcases h with ⟨s, hs, hout⟩
    constructor
    · intro _
      refine ⟨s, hs, ?_⟩
      by_cases hsl : -(const.length : ℤ) ≤ s
      · exact Or.inr (hout hsl)
      · exact Or.inl (by omega)
    · intro _
      rfl

theorem argminAux_keep (l : List ℝ) : ∀ (bv : ℝ) (i best : ℕ),
    (∀ v ∈ l, ¬ v < bv) → argminAux l bv i best = best := by
  induction l with
  | nil => intro bv i best _; rfl
  | cons v rest ih =>
    intro bv i best h
    simp only [argminAux]
    rw [if_neg (h v (by simp))]
    exact ih bv (i+1) best (fun u hu => h u (by simp [hu]))

theorem argminAux_strict (l : List ℝ) : ∀ (k : ℕ) (bv : ℝ) (i best : ℕ),
    k < l.length → l.getD k 0 < bv →
    (∀ j, j < l.length → j ≠ k → l.getD k 0 < l.getD j 0) →
    argminAux l bv i best = i + k := by
  induction l with
  | nil => intro k bv i best hk; simp at hk
  | cons v rest ih =>
    intro k bv i best hk hlt hmin
    cases k with
    | zero =>
      rw [List.getD_cons_zero] at hlt
      simp only [argminAux]
      rw [if_pos hlt]
      rw [argminAux_keep rest v (i+1) i ?hkeep]
      · omega
      case hkeep =>
        intro u hu
        rcases List.getElem_of_mem hu with ⟨j, hj, rfl⟩
        have hj1 := hmin (j+1) (by simpa using Nat.succ_lt_succ hj) (by omega)
        rw [List.getD_cons_zero, List.getD_cons_succ,
          List.getD_eq_getElem _ _ hj] at hj1
        exact lt_asymm hj1
    | succ k' =>
      have hk' : k' < rest.length := by simpa using Nat.lt_of_succ_lt_succ hk
      have hval : (v :: rest).getD (k'+1) 0 = rest.getD k' 0 :=
        List.getD_cons_succ
      have hvlt : rest.getD k' 0 < v := by
        have h0 := hmin 0 (by simp) (by omega)
        rw [hval, List.getD_cons_zero] at h0
        exact h0
      have hminrest : ∀ j, j < rest.length → j ≠ k' →
          rest.getD k' 0 < rest.getD j 0 := by
        intro j hj hne
        have hj1 := hmin (j+1) (by simpa using Nat.succ_lt_succ hj) (by omega)
        rw [hval, List.getD_cons_succ] at hj1
        exact hj1
      rw [hval] at hlt
      simp only [argminAux]
      by_cases hvb : v < bv
      · rw [if_pos hvb]
        rw [ih k' v (i+1) i hk' hvlt hminrest]
        omega
      · rw [if_neg hvb]
        rw [ih k' bv (i+1) best hk' hlt hminrest]
        omega

theorem argmin_strict (l : List ℝ) (k : ℕ) (hk : k < l.length)
    (hmin : ∀ j, j < l.length → j ≠ k → l.getD k 0 < l.getD j 0) :
    argmin l = k := by
  cases l with
  | nil => simp at hk
  | cons v rest =>
    show argminAux rest v 1 0 = k
    cases k with
    | zero =>
      apply argminAux_keep
      intro u hu
      rcases List.getElem_of_mem hu with ⟨j, hj, rfl⟩
      have hj1 := hmin (j+1) (by simpa using Nat.succ_lt_succ hj) (by omega)
      rw [List.getD_cons_zero, List.getD_cons_succ,
        List.getD_eq_getElem _ _ hj] at hj1
      exact lt_asymm hj1
    | succ k' =>
      have hk' : k' < rest.length := by simpa using Nat.lt_of_succ_lt_succ hk
      have hval : (v :: rest).getD (k'+1) 0 = rest.getD k' 0 :=
        List.getD_cons_succ
      have hvlt : rest.getD k' 0 < v := by
        have h0 := hmin 0 (by simp) (by omega)
        rw [hval, List.getD_cons_zero] at h0
        exact h0
      have hminrest : ∀ j, j < rest.length → j ≠ k' →
          rest.getD k' 0 < rest.getD j 0 := by
        intro j hj hne
        have hj1 := hmin (j+1) (by simpa using Nat.succ_lt_succ hj) (by omega)
        rw [hval, List.getD_cons_succ] at hj1
        exact hj1
      rw [argminAux_strict rest k' v 1 0 hk' hvlt hminrest]
      omega

theorem getD_map_lt {α β : Type} (l : List α) (f : α → β) (i : ℕ)
    (hi : i < l.length) (d : α) (d' : β) :
    (l.map f).getD i d' = f (l.getD i d) := by
  rw [List.getD_eq_getElem _ _ (by simpa using hi),
    List.getD_eq_getElem _ _ hi, List.getElem_map]

theorem modulate_valid (data : List ℤ) (const : List ℂ)
    (hdata : ∀ s ∈ data, 0 ≤ s ∧ s < (const.length : ℤ)) :
    modulate data const = some (data.map (fun s => const.getD s.toNat 0)) := by
  rw [modulate,
    if_pos (fun i hi => ⟨by have := (hdata i hi).1; omega, (hdata i hi).2⟩)]
  congr 1
  apply List.map_congr_left
  intro s hs
  rw [if_pos (hdata s hs).1]

theorem demodulate_euclid_getD (const : List ℂ)
    (hdist : ∀ a b : ℕ, a < const.length → b < const.length → a ≠ b →
      const.getD a 0 ≠ const.getD b 0)
    (k : ℕ) (hk : k < const.length) :
    argmin (const.map (fun b => Complex.abs (const.getD k 0 - b))) = k := by
  apply argmin_strict
  · simpa using hk
  · intro j hj hne
    rw [List.length_map] at hj
    rw [getD_map_lt const _ k hk 0 0, getD_map_lt const _ j hj 0 0]
    simp only [sub_self, map_zero]
    have hsub : const.getD k 0 - const.getD j 0 ≠ 0 :=
      sub_ne_zero.mpr (hdist k j hk hj (Ne.symm hne))
    exact Complex.abs.pos hsub

/-- The noiseless round trip for any constellation that selects the
Euclidean metric and has pairwise distinct points. -/
theorem demod_modulate_euclid (const : List ℂ)
    (hcond : ¬ ((∀ c ∈ const, |c.im| < 1e-6) ∧ (∀ c ∈ const, 0 ≤ c.re)))
    (hdist : ∀ a b : ℕ, a < const.length → b < const.length → a ≠ b →
      const.getD a 0 ≠ const.getD b 0)
    (data : List ℤ) (hdata : ∀ s ∈ data, 0 ≤ s ∧ s < (const.length : ℤ)) :
    (modulate data const).map (fun x => demodZ x const) = some data := by
  rw [modulate_valid data const hdata, Option.map_some']
  congr 1
  rw [demodZ, demodulate, if_neg hcond, List.map_map, List.map_map]
  have hmap : ∀ s ∈ data, ((fun n : ℕ => (n : ℤ)) ∘ ((fun a => argmin
      (const.map (fun b => Complex.abs (a - b)))) ∘
      (fun s : ℤ => const.getD s.toNat 0))) s = s := by
    intro s hs
    rcases hdata s hs with ⟨h0, h1⟩
    have hkn : s.toNat < const.length := by omega
    simp only [Function.comp_apply]
    rw [demodulate_euclid_getD const hdist s.toNat hkn]
    exact Int.toNat_of_nonneg h0
  calc data.map _ = data.map id := List.map_congr_left hmap
  _ = data := List.map_id data

theorem argmin_pair_left (u v : ℝ) (h : u < v) : argmin [u, v] = 0 := by
  show argminAux [v] u 1 0 = 0
  simp only [argminAux]
  rw [if_neg (by linarith)]

theorem argmin_pair_right (u v : ℝ) (h : v < u) : argmin [u, v] = 1 := by
  show argminAux [v] u 1 0 = 1
  simp only [argminAux]
  rw [if_pos h]

theorem toC_ook : toC ook = [(0 : ℂ), ((Real.sqrt 2 : ℝ) : ℂ)] := by
  rw [toC, ook]
  simp

/-- The noiseless round trip for the OOK constellation, which selects the
incoherent metric `abs(abs(a) - b)`. -/
theorem demod_modulate_ook (data : List ℤ)
    (hdata : ∀ s ∈ data, 0 ≤ s ∧ s < 2) :
    (modulate data (toC ook)).map (fun x => demodZ x (toC ook)) = some data := by
  have hlen : (toC ook).length = 2 := by rw [toC_ook]; rfl
  have hdata' : ∀ s ∈ data, 0 ≤ s ∧ s < ((toC ook).length : ℤ) := by
    intro s hs
    rw [hlen]
    exact_mod_cast hdata s hs
  rw [modulate_valid data _ hdata', Option.map_some']
  congr 1
  rw [demodZ, demodulate, if_pos ?hcond, List.map_map, List.map_map]
  case hcond =>
    rw [toC_ook]
    constructor
    · intro c hc
      rcases List.mem_cons.mp hc with rfl | hc
      · norm_num
      rcases List.mem_cons.mp hc with rfl | hc
      · simp
        norm_num
      · simp at hc
    · intro c hc
      rcases List.mem_cons.mp hc with rfl | hc
      · norm_num
      rcases List.mem_cons.mp hc with rfl | hc
      · simp [Real.sqrt_nonneg]
      · simp at hc
  have hs2 : (0 : ℝ) < Real.sqrt 2 := Real.sqrt_pos.mpr (by norm_num)
  have hmap : ∀ s ∈ data, ((fun n : ℕ => (n : ℤ)) ∘ ((fun a => argmin
      ((toC ook).map (fun b =>
        Complex.abs (((Complex.abs a : ℝ) : ℂ) - b)))) ∘
      (fun s : ℤ => (toC ook).getD s.toNat 0))) s = s := by
    intro s hs
    have hs01 : s = 0 ∨ s = 1 := by
      rcases hdata s hs with ⟨h0, h1⟩
      omega
    simp only [Function.comp_apply]
    rcases hs01 with rfl | rfl
    · rw [toC_ook]
      have hg : ([(0 : ℂ), ((Real.sqrt 2 : ℝ) : ℂ)].getD (Int.toNat 0) 0) = 0 := rfl
      rw [hg]
      have hm : ([(0 : ℂ), ((Real.sqrt 2 : ℝ) : ℂ)].map (fun b =>
          Complex.abs (((Complex.abs (0 : ℂ) : ℝ) : ℂ) - b)))
          = [0, Real.sqrt 2] := by
        simp [Complex.abs_ofReal, abs_of_nonneg (Real.sqrt_nonneg 2)]
      rw [hm, argmin_pair_left 0 (Real.sqrt 2) hs2]
      rfl
    · rw [toC_ook]
      have hg : ([(0 : ℂ), ((Real.sqrt 2 : ℝ) : ℂ)].getD (Int.toNat 1) 0)
          = ((Real.sqrt 2 : ℝ) : ℂ) := rfl
      rw [hg]
      have hm : ([(0 : ℂ), ((Real.sqrt 2 : ℝ) : ℂ)].map (fun b =>
          Complex.abs (((Complex.abs ((Real.sqrt 2 : ℝ) : ℂ) : ℝ) : ℂ) - b)))
          = [Real.sqrt 2, 0] := by
        simp [Complex.abs_ofReal, abs_of_nonneg (Real.sqrt_nonneg 2)]
      rw [hm, argmin_pair_right (Real.sqrt 2) 0 hs2]
      rfl
  calc data.map _ = data.map id := List.map_congr_left hmap
  _ = data := List.map_id data

theorem pamPoints2_eq : pamPoints 2 true true = [-1, 1] := by
  have hl : pamLevels 2 true = [-(1/2 : ℝ), 1/2] := by
    rw [pamLevels, if_pos rfl]
    norm_num [List.range_succ]
  have hsqrt : Real.sqrt ((([-(1/2 : ℝ), 1/2].map (fun w => w^2)).sum
      / ((2 : ℕ) : ℝ))) = 1/2 := by
    have h14 : (([-(1/2 : ℝ), 1/2].map (fun w => w^2)).sum / ((2 : ℕ) : ℝ))
        = (1/2 : ℝ)^2 := by norm_num
    rw [h14, Real.sqrt_sq (by norm_num)]
  have hb : pamBase 2 true = [-1, 1] := by
    rw [pamBase, hl, hsqrt]
    norm_num
  have hinv2 : invert_map (gray_code 2) = [0, 1] := by decide
  rw [pamPoints, if_pos rfl, hinv2, hb, npSelect]
  norm_num

theorem toC_pam2 : toC (pamPoints 2 true true) = [(-1 : ℂ), 1] := by
  rw [toC, pamPoints2_eq]
  simp

theorem round8_zero : round8 0 = 0 := by
  rw [round8]
  norm_num

theorem round8_one : round8 1 = 1 := by
  have h : (1 : ℝ) * 10^8 = ((10^8 : ℤ) : ℝ) := by norm_num
  rw [round8, h, round_intCast]
  norm_num

theorem round8_neg_one : round8 (-1) = -1 := by
  have h : (-1 : ℝ) * 10^8 = ((-(10^8) : ℤ) : ℝ) := by norm_num
  rw [round8, h, round_intCast]
  norm_num

/-- `psk()` (defaults `m = 2`, `phase0 = 0`, Gray) is exactly `[1, -1]`:
the two points are `±1` with zero imaginary part, and rounding to 8
decimals is exact on them. -/
theorem pskPoints2_eq : pskPoints 2 0 true = [(1 : ℂ), -1] := by
  have hbase : pskBase 2 0 = [(1 : ℂ), -1] := by
    rw [pskBase]
    have h0 : 2 * Real.pi / ((2 : ℕ) : ℝ) * ((0 : ℕ) : ℝ) + 0 = 0 := by
      norm_num
    have h1 : 2 * Real.pi / ((2 : ℕ) : ℝ) * ((1 : ℕ) : ℝ) + 0 = Real.pi := by
      push_cast
      ring
    rw [show List.range 2 = [0, 1] by rfl]
    rw [List.map_cons, List.map_cons, List.map_nil]
    rw [h0, h1, Real.cos_zero, Real.sin_zero, Real.cos_pi, Real.sin_pi]
    rw [round8_zero, round8_one, round8_neg_one]
    simp
  have hinv2 : invert_map (gray_code 2) = [0, 1] := by decide
  rw [pskPoints, if_pos rfl, hinv2, hbase, npSelect]
  norm_num

theorem sqrt16_eq : Nat.sqrt 16 = 4 := by
  rw [show (16 : ℕ) = 4 * 4 by norm_num, Nat.sqrt_eq]

theorem qamGrid_nodup (n : ℕ) : (qamGrid n).Nodup := by
  rw [qamGrid, List.nodup_flatten]
  constructor
  · intro l hl
    rcases List.mem_map.mp hl with ⟨r, _, rfl⟩
    refine (List.nodup_range n).map ?_
    intro a b h
    have him := congrArg Complex.im h
    simp at him
    exact_mod_cast him
  · rw [List.pairwise_map]
    refine List.Pairwise.imp ?_ (List.pairwise_lt_range n)
    intro r r' hlt z hz hz'
    rcases List.mem_map.mp hz with ⟨i, _, rfl⟩
    rcases List.mem_map.mp hz' with ⟨i', _, heq⟩
    have hre := congrArg Complex.re heq
    simp at hre
    omega

theorem qamCentered_nodup (n : ℕ) : (qamCentered n).Nodup := by
  rw [qamCentered]
  refine (qamGrid_nodup n).map ?_
  intro a b h
  exact sub_left_injective h

theorem npStd_qamCentered (n : ℕ) (hn : 1 ≤ n) :
    npStd (qamCentered n)
      = Real.sqrt (((qamCentered n).map (fun z => Complex.abs z^2)).sum
        / ((n * n : ℕ) : ℝ)) := by
  have hmap : (qamCentered n).map
        (fun z => Complex.abs (z - 0 / ((n * n : ℕ) : ℂ))^2)
      = (qamCentered n).map (fun z => Complex.abs z^2) := by
    apply List.map_congr_left
    intro z _
    rw [zero_div, sub_zero]
  rw [npStd, npMeanC, qamCentered_sum n hn, qamCentered_length, hmap]

theorem npStd_qamCentered_pos (n : ℕ) (hn : 2 ≤ n) :
    0 < npStd (qamCentered n) := by
  rw [npStd_qamCentered n (by omega)]
  apply Real.sqrt_pos.mpr
  have h := qamCentered_sq_sum_pos n hn
  positivity

theorem qamBase_nodup (n : ℕ) (hn : 2 ≤ n) : (qamBase (n * n)).Nodup := by
  rw [qamBase, Nat.sqrt_eq]
  have hσ : npStd (qamCentered n) ≠ 0 := (npStd_qamCentered_pos n hn).ne'
  have hσC : ((npStd (qamCentered n) : ℝ) : ℂ) ≠ 0 :=
    Complex.ofReal_ne_zero.mpr hσ
  refine (qamCentered_nodup n).map ?_
  intro a b h
  have h2 := congrArg (fun w => w * ((npStd (qamCentered n) : ℝ) : ℂ)) h
  simpa [div_mul_cancel₀ _ hσC] using h2

theorem qamGrid4_sum : (qamGrid 4).sum = 24 + 24 * Complex.I := by
  rw [qamGrid, show List.range 4 = [0, 1, 2, 3] by rfl]
  simp only [List.map_cons, List.map_nil, List.flatten_cons, List.flatten_nil,
    List.sum_append, List.sum_cons, List.sum_nil]
  push_cast
  ring

theorem npMeanC_qamGrid4 :
    npMeanC (qamGrid 4) = ((3/2 : ℝ) : ℂ) + ((3/2 : ℝ) : ℂ) * Complex.I := by
  rw [npMeanC, qamGrid4_sum, qamGrid_length]
  have h16 : ((4 * 4 : ℕ) : ℂ) = 16 := by norm_num
  rw [h16, div_eq_iff (by norm_num : (16 : ℂ) ≠ 0)]
  push_cast
  ring

theorem qamGrid4_head : (qamGrid 4).getD 0 0 = 0 := by
  rw [qamGrid, show List.range 4 = [0, 1, 2, 3] by rfl]
  simp only [List.map_cons, List.map_nil, List.flatten_cons, List.cons_append,
    List.getD_cons_zero]
  norm_num

theorem qamCentered4_head :
    (qamCentered 4).getD 0 0
      = -(((3/2 : ℝ) : ℂ) + ((3/2 : ℝ) : ℂ) * Complex.I) := by
  rw [qamCentered,
    getD_map_lt (qamGrid 4) _ 0 (by rw [qamGrid_length]; norm_num) 0 0,
    qamGrid4_head, npMeanC_qamGrid4]
  ring

theorem qamBase16_head : (qamBase 16).getD 0 0
    = -(((3/2 : ℝ) : ℂ) + ((3/2 : ℝ) : ℂ) * Complex.I)
      / ((npStd (qamCentered 4) : ℝ) : ℂ) := by
  rw [qamBase, sqrt16_eq,
    getD_map_lt (qamCentered 4) _ 0 (by rw [qamCentered_length]; norm_num) 0 0,
    qamCentered4_head]

theorem qam16_cond_false :
    ¬ ((∀ c ∈ qamPoints 16 true, |c.im| < 1e-6)
      ∧ (∀ c ∈ qamPoints 16 true, 0 ≤ c.re)) := by
  rintro ⟨-, h2⟩
  have hmem : (qamBase 16).getD 0 0 ∈ qamPoints 16 true := by
    rw [qamPoints, if_pos rfl, sqrt16_eq, npSelect]
    have h0 : (0 : ℕ) ∈ invert_map (qamSnake 4) := by decide
    exact List.mem_map_of_mem (fun j => (qamBase 16).getD j 0) h0
  have hre := h2 _ hmem
  rw [qamBase16_head, Complex.div_ofReal_re] at hre
  have hσ := npStd_qamCentered_pos 4 (by norm_num)
  have hnum : (-(((3/2 : ℝ) : ℂ) + ((3/2 : ℝ) : ℂ) * Complex.I)).re
      = -(3/2) := by simp
  rw [hnum] at hre
  have hlt : (0:ℝ) < -(-(3/2)) / npStd (qamCentered 4) := by positivity
  rw [neg_div] at hlt
  linarith

theorem getD_mem_of_lt (l : List ℕ) (i : ℕ) (hi : i < l.length) :
    l.getD i 0 ∈ l := by
  rw [List.getD_eq_getElem _ _ hi]
  exact List.getElem_mem hi

theorem nodup_getD_ne_c (x : List ℂ) (hnd : x.Nodup) (i j : ℕ)
    (hi : i < x.length) (hj : j < x.length) (hij : i ≠ j) :
    x.getD i 0 ≠ x.getD j 0 := by
  rw [x.getD_eq_getElem 0 hi, x.getD_eq_getElem 0 hj]
  intro h
  exact hij ((hnd.getElem_inj_iff).mp h)

theorem qam16_dist : ∀ a b : ℕ, a < (qamPoints 16 true).length →
    b < (qamPoints 16 true).length → a ≠ b →
    (qamPoints 16 true).getD a 0 ≠ (qamPoints 16 true).getD b 0 := by
  have hndx_len : (invert_map (qamSnake 4)).length = 16 := by decide
  have hndx_nodup : (invert_map (qamSnake 4)).Nodup := by decide
  have hndx_lt : ∀ v ∈ invert_map (qamSnake 4), v < 16 := by decide
  have hblen : (qamBase 16).length = 16 := by
    rw [show (16 : ℕ) = 4 * 4 by norm_num]
    exact qamBase_length 4
  have hbnodup : (qamBase 16).Nodup := by
    rw [show (16 : ℕ) = 4 * 4 by norm_num]
    exact qamBase_nodup 4 (by norm_num)
  intro a b ha hb hne
  rw [qamPoints, if_pos rfl, sqrt16_eq, npSelect] at ha hb ⊢
  rw [List.length_map, hndx_len] at ha hb
  rw [getD_map_lt _ _ a (by rw [hndx_len]; exact ha) 0 0,
    getD_map_lt _ _ b (by rw [hndx_len]; exact hb) 0 0]
  have hne2 : (invert_map (qamSnake 4)).getD a 0
      ≠ (invert_map (qamSnake 4)).getD b 0 :=
    nodup_getD_ne _ hndx_nodup a b (by rw [hndx_len]; exact ha)
      (by rw [hndx_len]; exact hb) hne
  apply nodup_getD_ne_c _ hbnodup _ _ ?_ ?_ hne2
  · rw [hblen]
    exact hndx_lt _ (getD_mem_of_lt _ a (by rw [hndx_len]; exact ha))
  · rw [hblen]
    exact hndx_lt _ (getD_mem_of_lt _ b (by rw [hndx_len]; exact hb))

theorem qamPoints16_length : (qamPoints 16 true).length = 16 := by
  rw [qamPoints, if_pos rfl, sqrt16_eq, npSelect, List.length_map]
  decide

theorem demod_modulate_qam16 (data : List ℤ)
    (hdata : ∀ s ∈ data, 0 ≤ s ∧ s < 16) :
    (modulate data (qamPoints 16 true)).map
      (fun x => demodZ x (qamPoints 16 true)) = some data := by
  apply demod_modulate_euclid _ qam16_cond_false qam16_dist
  intro s hs
  rw [qamPoints16_length]
  exact_mod_cast hdata s hs

theorem dist_pair (u v : ℂ) (huv : u ≠ v) :
    ∀ a b : ℕ, a < ([u, v] : List ℂ).length → b < ([u, v] : List ℂ).length →
      a ≠ b → ([u, v].getD a 0) ≠ ([u, v].getD b 0) := by
  intro a b ha hb hne
  simp only [List.length_cons, List.length_nil] at ha hb
  interval_cases a <;> interval_cases b <;> simp_all
  · exact fun h => huv h.symm

/-- C1: for every symbol stream with entries in `[0, m)`, demodulating the
noiseless modulated signal returns the original symbols, for each of the
default constellations `ook()`, `pam()` (= `pam(2, gray, centered)`),
`psk()` (= `psk(2, phase0=0, gray)`) and `qam(16)`, under the default
metric selection and the default arg-min decision rule. -/
theorem demodulate_modulate_roundtrip (s2 s16 : List ℤ)
    (h2 : ∀ s ∈ s2, 0 ≤ s ∧ s < 2) (h16 : ∀ s ∈ s16, 0 ≤ s ∧ s < 16) :
    (modulate s2 (toC ook)).map (fun x => demodZ x (toC ook)) = some s2
    ∧ (modulate s2 (toC (pamPoints 2 true true))).map
        (fun x => demodZ x (toC (pamPoints 2 true true))) = some s2
    ∧ (modulate s2 (pskPoints 2 0 true)).map
        (fun x => demodZ x (pskPoints 2 0 true)) = some s2
    ∧ (modulate s16 (qamPoints 16 true)).map
        (fun x => demodZ x (qamPoints 16 true)) = some s16 := by
  refine ⟨demod_modulate_ook s2 h2, ?_, ?_, demod_modulate_qam16 s16 h16⟩
  · rw [toC_pam2]
    apply demod_modulate_euclid
    · rintro ⟨-, h⟩
      have hval := h (-1) (by simp)
      have : ((-1 : ℂ)).re = -1 := by simp
      rw [this] at hval
      linarith
    · exact dist_pair (-1) 1 (by norm_num)
    · intro s hs
      rcases h2 s hs with ⟨hs0, hs1⟩
      refine ⟨hs0, ?_⟩
      simpa using hs1
  · rw [pskPoints2_eq]
    apply demod_modulate_euclid
    · rintro ⟨-, h⟩
      have hval := h (-1) (by simp)
      have : ((-1 : ℂ)).re = -1 := by simp
      rw [this] at hval
      linarith
    · exact dist_pair 1 (-1) (by norm_num)
    · intro s hs
      rcases h2 s hs with ⟨hs0, hs1⟩
      refine ⟨hs0, ?_⟩
      simpa using hs1

theorem demodulate_modulate_roundtrip_witness :
    (∀ s ∈ ([0, 1, 1, 0] : List ℤ), 0 ≤ s ∧ s < 2)
    ∧ (∀ s ∈ ([0, 5, 15, 9] : List ℤ), 0 ≤ s ∧ s < 16)
    ∧ ((modulate [0, 1, 1, 0] (toC ook)).map
        (fun x => demodZ x (toC ook)) = some [0, 1, 1, 0]
      ∧ (modulate [0, 1, 1, 0] (toC (pamPoints 2 true true))).map
          (fun x => demodZ x (toC (pamPoints 2 true true))) = some [0, 1, 1, 0]
      ∧ (modulate [0, 1, 1, 0] (pskPoints 2 0 true)).map
          (fun x => demodZ x (pskPoints 2 0 true)) = some [0, 1, 1, 0]
      ∧ (modulate [0, 5, 15, 9] (qamPoints 16 true)).map
          (fun x => demodZ x (qamPoints 16 true)) = some [0, 5, 15, 9]) :=
  ⟨by decide, by decide,
    demodulate_modulate_roundtrip [0, 1, 1, 0] [0, 5, 15, 9]
      (by decide) (by decide)⟩

theorem constellation_unit_energy_witness :
    meanSqR (pamPoints 2 false true) = 1
      ∧ meanSqR (pamPoints (2^1) true true) = 1
      ∧ |meanSq (pskPoints 1 0 false) - 1| ≤ 2.1e-8
      ∧ |meanSq (pskPoints (2^1) 0 true) - 1| ≤ 2.1e-8
      ∧ meanSq (qamPoints (2 * 2) false) = 1
      ∧ meanSq (qamPoints ((2^1) * (2^1)) true) = 1 :=
  ⟨constellation_unit_energy.2.1 2 (by decide),
    constellation_unit_energy.2.2.1 1 (by decide),
    constellation_unit_energy.2.2.2.1 1 0 (by decide),
    constellation_unit_energy.2.2.2.2.1 1 0,
    constellation_unit_energy.2.2.2.2.2.1 2 (by decide),
    constellation_unit_energy.2.2.2.2.2.2 1 (by decide)⟩

/-- `np.finfo(float).eps = 2^-52`; its square root is the tolerance used to
detect the singular points of the raised-cosine formulas. -/
noncomputable def sqrtEps : ℝ := Real.sqrt ((2 : ℝ)^(-52 : ℤ))

/-- `np.sinc`: `sin(pi*x)/(pi*x)` with `sinc(0) = 1`. -/
noncomputable def sinc (x : ℝ) : ℝ :=
  if x = 0 then 1 else Real.sin (Real.pi * x) / (Real.pi * x)

/-- Tap `i` (for `i < 2*delay+1`) of the raised-cosine filter before
normalisation: `t = (i - delay)/sps`; positions with
`abs(denom) > sqrt(eps)` carry the generic formula
`sinc(t)*cos(pi*beta*t)/denom/sps` (the `b[idx1]` assignment), the
remaining near-singular positions keep the `full_like` fill value
`beta*sin(pi/(2*beta))/(2*sps)`. -/
noncomputable def rcosfirCoef (beta : ℝ) (sps delay : ℕ) (i : ℕ) : ℝ :=
  let t := ((i : ℝ) - delay) / sps
  let denom := 1 - (2 * beta * t)^2
  if |denom| > sqrtEps then
    sinc t * Real.cos (Real.pi * beta * t) / denom / sps
  else beta * Real.sin (Real.pi / (2 * beta)) / (2 * sps)

/-- `b /= sqrt(sum(b**2))`. -/
noncomputable def l2normalize (b : List ℝ) : List ℝ :=
  b.map (fun v => v / Real.sqrt ((b.map (fun w => w^2)).sum))

/-- `rcosfir(beta, sps, span)` with an explicit span.  `beta` outside
`[0, 1]` raises `ValueError`; `beta = 0` raises `ZeroDivisionError` while
computing the scalar fill value `beta*sin(pi/(2*beta))/(2*sps)` (Python
float division by zero), before any filter tap is produced.  Otherwise
`delay = int(span*sps/2)`, the taps run over `t = arange(-delay,
delay+1)/sps`, and the result is normalised to unit energy. -/
noncomputable def rcosfir (beta : ℝ) (sps span : ℕ) : Option (List ℝ) :=
  if beta < 0 ∨ beta > 1 then none
  else if beta = 0 then none
  else some (l2normalize ((List.range (2 * (span * sps / 2) + 1)).map
    (rcosfirCoef beta sps (span * sps / 2))))

/-- Tap `i` of the root-raised-cosine filter before normalisation: the
positions within `sqrt(eps)` of the singularity `|4*beta*t| = 1` carry the
analytic limit (the `b[idx2]` assignment, which is applied last and so
wins), the centre tap `t = 0` carries its closed form `b[delay]`, and the
remaining positions (`ind`) the generic formula. -/
noncomputable def rrcosfirCoef (beta : ℝ) (sps delay : ℕ) (i : ℕ) : ℝ :=
  let t := ((i : ℝ) - delay) / sps
  if |(|4 * beta * t|) - 1| < sqrtEps then
    (Real.pi * (beta + 1) * Real.sin (Real.pi * (beta + 1) / (4 * beta))
      - 4 * beta * Real.sin (Real.pi * (beta - 1) / (4 * beta))
      + Real.pi * (beta - 1) * Real.cos (Real.pi * (beta - 1) / (4 * beta)))
      / (2 * Real.pi * sps)
  else if i = delay then
    -1 / (Real.pi * sps) * (Real.pi * (beta - 1) - 4 * beta)
  else
    -4 * beta / sps * (Real.cos ((1 + beta) * Real.pi * t)
      + Real.sin ((1 - beta) * Real.pi * t) / (4 * beta * t))
      / (Real.pi * ((4 * beta * t)^2 - 1))

/-- `rrcosfir(beta, sps, span)` with an explicit span; `beta = 0` raises
`ZeroDivisionError` computing the scalar `pi*(beta+1)/(4*beta)` terms. -/
noncomputable def rrcosfir (beta : ℝ) (sps span : ℕ) : Option (List ℝ) :=
  if beta < 0 ∨ beta > 1 then none
  else if beta = 0 then none
  else some (l2normalize ((List.range (2 * (span * sps / 2) + 1)).map
    (rrcosfirCoef beta sps (span * sps / 2))))

theorem sqrtEps_lt_one : sqrtEps < 1 := by
  rw [sqrtEps]
  have h1 : (2 : ℝ)^(-52 : ℤ) < 1 := by
    rw [zpow_neg]
    have h2 : (1 : ℝ) < 2^(52 : ℤ) := by
      rw [show (52 : ℤ) = ((52 : ℕ) : ℤ) by norm_num, zpow_natCast]
      norm_num
    rw [inv_lt_one_iff₀]
    right
    exact h2
  calc Real.sqrt ((2 : ℝ)^(-52 : ℤ)) < Real.sqrt 1 :=
    Real.sqrt_lt_sqrt (by positivity) h1
  _ = 1 := Real.sqrt_one

theorem sinc_zero : sinc 0 = 1 := by
  rw [sinc, if_pos rfl]

theorem sinc_neg (x : ℝ) : sinc (-x) = sinc x := by
  rcases eq_or_ne x 0 with rfl | hx
  · rw [neg_zero]
  · rw [sinc, sinc, if_neg (by simpa using hx), if_neg hx, mul_neg,
      Real.sin_neg, neg_div_neg_eq]

theorem getD_map_range {β : Type} (N : ℕ) (f : ℕ → β) (i : ℕ) (hi : i < N)
    (d' : β) : (((List.range N).map f).getD i d') = f i := by
  rw [getD_map_lt (List.range N) f i (by simpa using hi) 0 d']
  congr 1
  rw [List.getD_eq_getElem _ _ (by simpa using hi), List.getElem_range]

theorem l2normalize_length (b : List ℝ) : (l2normalize b).length = b.length := by
  rw [l2normalize, List.length_map]

theorem l2normalize_sum_sq (b : List ℝ)
    (hpos : 0 < (b.map (fun w => w^2)).sum) :
    ((l2normalize b).map (fun v => v^2)).sum = 1 := by
  rw [l2normalize, sum_map_sq_div, Real.sq_sqrt hpos.le]
  exact div_self hpos.ne'

theorem rcosfirCoef_center (beta : ℝ) (sps delay : ℕ) :
    rcosfirCoef beta sps delay delay = 1 / sps := by
  simp only [rcosfirCoef]
  have ht : ((delay : ℝ) - delay) / sps = 0 := by
    rw [sub_self, zero_div]
  rw [ht]
  have hd : 1 - (2 * beta * 0)^2 = 1 := by ring
  rw [hd]
  rw [if_pos (by rw [abs_one]; exact sqrtEps_lt_one)]
  rw [sinc_zero, mul_zero, Real.cos_zero]
  norm_num

theorem rcosfirCoef_symm (beta : ℝ) (sps delay i : ℕ) (hi : i ≤ 2 * delay) :
    rcosfirCoef beta sps delay (2 * delay - i) = rcosfirCoef beta sps delay i := by
  simp only [rcosfirCoef]
  have ht : ((2 * delay - i : ℕ) : ℝ) - delay = -((i : ℝ) - delay) := by
    rw [Nat.cast_sub hi]
    push_cast
    ring
  rw [ht, neg_div]
  have hd : 1 - (2 * beta * (-(((i : ℝ) - delay) / sps)))^2
      = 1 - (2 * beta * (((i : ℝ) - delay) / sps))^2 := by ring
  rw [hd]
  by_cases hc : |1 - (2 * beta * (((i : ℝ) - delay) / sps))^2| > sqrtEps
  · rw [if_pos hc, if_pos hc, sinc_neg, mul_neg, Real.cos_neg]
  · rw [if_neg hc, if_neg hc]

theorem rrcosfirCoef_center_pos (beta : ℝ) (sps delay : ℕ) (hb0 : 0 < beta)
    (hb1 : beta ≤ 1) (hsps : 1 ≤ sps) :
    0 < rrcosfirCoef beta sps delay delay := by
  simp only [rrcosfirCoef]
  have ht : ((delay : ℝ) - delay) / sps = 0 := by
    rw [sub_self, zero_div]
  rw [ht]
  have h1 : |(|4 * beta * (0:ℝ)|) - 1| = 1 := by
    rw [mul_zero, abs_zero, zero_sub, abs_neg, abs_one]
  rw [if_neg (by rw [h1]; exact not_lt.mpr (le_of_lt sqrtEps_lt_one))]
  simp only [if_true]
  have hpi := Real.pi_pos
  have hspsR : (0:ℝ) < sps := by exact_mod_cast hsps
  have heq : -1 / (Real.pi * sps) * (Real.pi * (beta - 1) - 4 * beta)
      = (Real.pi * (1 - beta) + 4 * beta) / (Real.pi * sps) := by
    field_simp
    ring
  rw [heq]
  apply div_pos
  · nlinarith
  · positivity

theorem rrcosfirCoef_symm (beta : ℝ) (sps delay i : ℕ) (hi : i ≤ 2 * delay) :
    rrcosfirCoef beta sps delay (2 * delay - i)
      = rrcosfirCoef beta sps delay i := by
  simp only [rrcosfirCoef]
  have ht : ((2 * delay - i : ℕ) : ℝ) - delay = -((i : ℝ) - delay) := by
    rw [Nat.cast_sub hi]
    push_cast
    ring
  rw [ht, neg_div]
  set t := ((i : ℝ) - delay) / sps with hts
  have habs : |4 * beta * (-t)| = |4 * beta * t| := by
    rw [mul_neg, abs_neg]
  rw [habs]
  by_cases hc1 : |(|4 * beta * t|) - 1| < sqrtEps
  · rw [if_pos hc1, if_pos hc1]
  · rw [if_neg hc1, if_neg hc1]
    by_cases hc2 : i = delay
    · have hc2' : 2 * delay - i = delay := by omega
      rw [if_pos hc2', if_pos hc2]
    · have hc2' : 2 * delay - i ≠ delay ∨ i = delay := by omega
      rcases hc2' with hc2' | hc2'
      · rw [if_neg hc2', if_neg hc2]
        have e1 : (1 + beta) * Real.pi * (-t) = -((1 + beta) * Real.pi * t) := by
          ring
        have e2 : (1 - beta) * Real.pi * (-t) = -((1 - beta) * Real.pi * t) := by
          ring
        have e3 : 4 * beta * (-t) = -(4 * beta * t) := by ring
        rw [e1, e2, e3, Real.cos_neg, Real.sin_neg, neg_div_neg_eq]
        have e4 : (-(4 * beta * t))^2 = (4 * beta * t)^2 := by ring
        rw [e4]
      · exact absurd hc2' hc2

/-- A tap list built from an even coefficient function with a nonzero centre
tap normalises to unit energy and is symmetric. -/
theorem filter_norm_symm (f : ℕ → ℝ) (delay : ℕ)
    (hcsym : ∀ i, i ≤ 2 * delay → f (2 * delay - i) = f i)
    (hcenter : f delay ≠ 0) :
    ((l2normalize ((List.range (2 * delay + 1)).map f)).map
      (fun v => v^2)).sum = 1
    ∧ ∀ i, i < (l2normalize ((List.range (2 * delay + 1)).map f)).length →
        (l2normalize ((List.range (2 * delay + 1)).map f)).getD i 0
          = (l2normalize ((List.range (2 * delay + 1)).map f)).getD
              ((l2normalize ((List.range (2 * delay + 1)).map f)).length
                - 1 - i) 0 := by
  set L := (List.range (2 * delay + 1)).map f with hL
  have hlen : L.length = 2 * delay + 1 := by
    rw [hL, List.length_map, List.length_range]
  have hpos : 0 < (L.map (fun w => w^2)).sum := by
    apply sum_sq_pos_of_mem _ (f delay)
    · rw [hL]
      exact List.mem_map_of_mem f (List.mem_range.mpr (by omega))
    · exact hcenter
  refine ⟨l2normalize_sum_sq L hpos, ?_⟩
  intro i hi
  rw [l2normalize_length, hlen] at hi
  rw [l2normalize_length, hlen]
  have hgl : ∀ j, j < 2 * delay + 1 → (l2normalize L).getD j 0
      = f j / Real.sqrt ((L.map (fun w => w^2)).sum) := by
    intro j hj
    rw [l2normalize, getD_map_lt L _ j (by rw [hlen]; exact hj) 0 0]
    rw [hL, getD_map_range _ f j hj 0]
  have hi2 : 2 * delay + 1 - 1 - i = 2 * delay - i := by omega
  rw [hi2, hgl i hi, hgl (2 * delay - i) (by omega)]
  rw [hcsym i (by omega)]

/-- C6 (amended): for every `beta` in `(0, 1]` and positive integers `sps`
and `span`, both `rcosfir(beta, sps, span)` and `rrcosfir(beta, sps, span)`
return coefficient sequences whose squares sum to 1 and which are symmetric
(`b[i] == b[N-1-i]`).  At `beta = 0` (inside the claimed range `[0, 1]`)
both functions instead raise `ZeroDivisionError`. -/
theorem rcosfir_rrcosfir_norm_symm (beta : ℝ) (sps span : ℕ)
    (hb0 : 0 < beta) (hb1 : beta ≤ 1) (hsps : 1 ≤ sps) :
    (∃ b, rcosfir beta sps span = some b
      ∧ (b.map (fun v => v^2)).sum = 1
      ∧ ∀ i, i < b.length → b.getD i 0 = b.getD (b.length - 1 - i) 0)
    ∧ (∃ c, rrcosfir beta sps span = some c
      ∧ (c.map (fun v => v^2)).sum = 1
      ∧ ∀ i, i < c.length → c.getD i 0 = c.getD (c.length - 1 - i) 0) := by
  have hnb : ¬ (beta < 0 ∨ beta > 1) := by
    push_neg
    constructor <;> linarith
  have hnz : ¬ (beta = 0) := hb0.ne'
  have hspsR : ((sps : ℝ)) ≠ 0 := by
    have : (0:ℝ) < sps := by exact_mod_cast hsps
    linarith
  constructor
  · have h := filter_norm_symm (rcosfirCoef beta sps (span * sps / 2))
      (span * sps / 2)
      (fun i hi => rcosfirCoef_symm beta sps (span * sps / 2) i hi)
      (by
        rw [rcosfirCoef_center]
        exact one_div_ne_zero hspsR)
    exact ⟨_, by rw [rcosfir, if_neg hnb, if_neg hnz], h.1, h.2⟩
  · have h := filter_norm_symm (rrcosfirCoef beta sps (span * sps / 2))
      (span * sps / 2)
      (fun i hi => rrcosfirCoef_symm beta sps (span * sps / 2) i hi)
      (ne_of_gt (rrcosfirCoef_center_pos beta sps (span * sps / 2) hb0 hb1 hsps))
    exact ⟨_, by rw [rrcosfir, if_neg hnb, if_neg hnz], h.1, h.2⟩

theorem rcosfir_rrcosfir_norm_symm_witness :
    (0 : ℝ) < 1/2 ∧ (1/2 : ℝ) ≤ 1 ∧ 1 ≤ 2 ∧
      ((∃ b, rcosfir (1/2) 2 3 = some b
        ∧ (b.map (fun v => v^2)).sum = 1
        ∧ ∀ i, i < b.length → b.getD i 0 = b.getD (b.length - 1 - i) 0)
      ∧ (∃ c, rrcosfir (1/2) 2 3 = some c
        ∧ (c.map (fun v => v^2)).sum = 1
        ∧ ∀ i, i < c.length → c.getD i 0 = c.getD (c.length - 1 - i) 0)) :=
  ⟨one_half_pos, le_of_lt one_half_lt_one, by decide,
    rcosfir_rrcosfir_norm_symm (1/2) 2 3 one_half_pos
      (le_of_lt one_half_lt_one) (by decide)⟩

/-- C6 counterexample: `beta = 0` lies in the claimed range `[0, 1]` and
passes both functions' own validation, yet `rcosfir(0, 6, 4)` raises
`ZeroDivisionError` evaluating `beta*sin(pi/(2*beta))/(2*sps)` and
`rrcosfir(0, 6, 4)` raises it evaluating `pi*(beta+1)/(4*beta)`, so no
coefficient sequence is returned at all. -/
theorem rcosfir_beta_zero_fails :
    rcosfir 0 6 4 = none ∧ rrcosfir 0 6 4 = none := by
  constructor
  · rw [rcosfir, if_neg (by norm_num), if_pos rfl]
  · rw [rrcosfir, if_neg (by norm_num), if_pos rfl]

end Comms
